import Mathlib

/-!
# Grid solvers over MPI: domain decomposition, topology, transport, kernels

A shallow embedding of `mpi_skeleton_gssor.c`.  The C `int` values are
modelled on `Int` (with the truncating division and remainder of C, and with
`int32` at the products and differences that can leave the range of `int`), grid
values on `ℚ`, flat `double` storage on functions from addresses, and the
MPI calls on the data movement the MPI standard prescribes for them.
-/

namespace GridSolvers

/-! ## Definitions -/

/-! ### Domain decomposer (`main`, the loop over the two axes) -/

/-- The largest value of the C type `int` (32 bits). -/
def INT_MAX : Int := 2147483647

/-- The value that a result `n` of `int` arithmetic has as an `int`: the
representative of `n` modulo `2 ^ 32` between `-2 ^ 31` and `2 ^ 31 - 1`. -/
def int32 (n : Int) : Int := (n + 2147483648) % 4294967296 - 2147483648

/-- Body of the decomposition loop for one axis: the pair
`(local[i], global_padded[i])` computed from `global[i]` and `grid[i]`.  The
product `local[i] * grid[i]` is an `int` product; the quotient plus one stays
in range for every `int` extent. -/
def decompose (global grid : Int) : Int × Int :=
  if Int.tmod global grid = 0 then
    (Int.tdiv global grid, global)
  else
    (Int.tdiv global grid + 1, int32 ((Int.tdiv global grid + 1) * grid))

/-- Value of `local[i]` after the decomposition loop. -/
def local_size (global grid : Int) : Int := (decompose global grid).1

/-- Value of `global_padded[i]` after the decomposition loop. -/
def global_padded (global grid : Int) : Int := (decompose global grid).2

/-- Number of padded rows (columns) of one axis, the `int` difference
`global_padded[i] - global[i]`. -/
def padding (global grid : Int) : Int := int32 (global_padded global grid - global)

/-! ### Neighbour topology -/

/-- Rank of the process at coordinates `(x, y)` of the Cartesian communicator:
the row-major numbering that `MPI_Cart_rank` uses, `grid1` being `grid[1]`. -/
def MPI_Cart_rank (grid1 x y : Int) : Int := x * grid1 + y

/-- The four neighbour ranks of a process. -/
structure Neighbours where
  north : Int
  south : Int
  east : Int
  west : Int
deriving DecidableEq

/-- Neighbour derivation of `main`: every neighbour starts as `-1` and is
replaced by the rank one step away when that step stays in the process grid. -/
def neighbours (grid0 grid1 rank_grid0 rank_grid1 : Int) : Neighbours :=
  { north := if rank_grid0 - 1 ≥ 0 then MPI_Cart_rank grid1 (rank_grid0 - 1) rank_grid1 else -1
    south := if rank_grid0 + 1 ≤ grid0 - 1 then MPI_Cart_rank grid1 (rank_grid0 + 1) rank_grid1 else -1
    east := if rank_grid1 + 1 ≤ grid1 - 1 then MPI_Cart_rank grid1 rank_grid0 (rank_grid1 + 1) else -1
    west := if rank_grid1 - 1 ≥ 0 then MPI_Cart_rank grid1 rank_grid0 (rank_grid1 - 1) else -1 }

/-! ### Iteration bounds -/

/-- The iteration ranges of one process. -/
structure Bounds where
  i_min : Int
  i_max : Int
  j_min : Int
  j_max : Int
deriving DecidableEq

/-- Iteration ranges of `main`: the full range `1 .. local + 1`, shrunk by one
on every side without a neighbour, and shrunk by the padding on the last
process of an axis. -/
def iteration_bounds (nb : Neighbours) (rank_grid0 rank_grid1 grid0 grid1
    local0 local1 global_padded0 global_padded1 global0 global1 : Int) : Bounds :=
  let i_min : Int := 1
  let i_max : Int := local0 + 1
  let j_min : Int := 1
  let j_max : Int := local1 + 1
  let i_min := if nb.north = -1 then i_min + 1 else i_min
  let i_max := if nb.south = -1 then i_max - 1 else i_max
  let j_min := if nb.west = -1 then j_min + 1 else j_min
  let j_max := if nb.east = -1 then j_max - 1 else j_max
  let i_max := if rank_grid0 = grid0 - 1 then i_max - int32 (global_padded0 - global0) else i_max
  let j_max := if rank_grid1 = grid1 - 1 then j_max - int32 (global_padded1 - global1) else j_max
  { i_min := i_min, i_max := i_max, j_min := j_min, j_max := j_max }

/-- Iteration ranges of the process at coordinates `(x, y)`, everything taken
from the decomposer and the neighbour derivation as `main` does. -/
def process_bounds (global0 global1 grid0 grid1 x y : Int) : Bounds :=
  iteration_bounds (neighbours grid0 grid1 x y) x y grid0 grid1
    (local_size global0 grid0) (local_size global1 grid1)
    (global_padded global0 grid0) (global_padded global1 grid1) global0 global1

/-! ### Loops -/

/-- The loop `for (k = lo; k < hi; k++) body`, run on the state `s`. -/
def forRange {σ : Type} (lo hi : Int) (body : Int → σ → σ) (s : σ) : σ :=
  ((List.range (hi - lo).toNat).map (fun k : Nat => lo + (k : Int))).foldl
    (fun acc k => body k acc) s

/-- The loop `for (k = lo; k < hi; k++) body` whose body may `break`: the body
returns the new state and whether it left the loop. -/
def forRangeBreak {σ : Type} (lo hi : Int) (body : Int → σ → σ × Bool) (s : σ) : σ :=
  (forRange lo hi (fun k (acc : σ × Bool) => if acc.2 then acc else body k acc.1) (s, false)).1

/-! ### Computational kernels -/

/-- A local buffer `double **`: the value at row `i` and column `j`. -/
abbrev Grid := Int → Int → ℚ

/-- The assignment `u[i][j] = v`. -/
def setCell (u : Grid) (i j : Int) (v : ℚ) : Grid :=
  fun a b => if a = i ∧ b = j then v else u a b

/-- The two local buffers of a process. -/
structure Buffers where
  u_previous : Grid
  u_current : Grid

/-- The kernel `Jacobi`. -/
def Jacobi (s : Buffers) (X_min X_max Y_min Y_max : Int) : Buffers :=
  forRange X_min X_max (fun i s =>
    forRange Y_min Y_max (fun j s =>
      { s with
        u_current := setCell s.u_current i j
                      ((s.u_previous (i - 1) j + s.u_previous (i + 1) j + s.u_previous i (j - 1)
                        + s.u_previous i (j + 1)) / 4) }) s) s

/-- Average of the four axis neighbours of `(i, j)` in `u`, the value that
`Jacobi` stores. -/
def stencil_average (u : Grid) (i j : Int) : ℚ :=
  (u (i - 1) j + u (i + 1) j + u i (j - 1) + u i (j + 1)) / 4

/-- The kernel `GaussSeidel`. -/
def GaussSeidel (s : Buffers) (X_min X_max Y_min Y_max : Int) (omega : ℚ) : Buffers :=
  forRange X_min X_max (fun i s =>
    forRange Y_min Y_max (fun j s =>
      { s with
        u_current := setCell s.u_current i j
                      (s.u_previous i j + (s.u_current (i - 1) j + s.u_previous (i + 1) j
                        + s.u_current i (j - 1) + s.u_previous i (j + 1)
                        - 4 * s.u_previous i j) * omega / 4) }) s) s

/-- Reception of one `mat_row` (`local1` consecutive doubles) at `&u[i][j]`;
`msg k` is the `k`-th double of the message. -/
def recv_row (u : Grid) (i j local1 : Int) (msg : Int → ℚ) : Grid :=
  forRange 0 local1 (fun k u => setCell u i (j + k) (msg k)) u

/-- The in-line sweep of `main`, its first condition read as
`i == i_min && j == j_min && north != -1`.  A receive stores the message in
the cells it names: `msg_north k` is the `k`-th double of the row sent by the
north neighbour and `msg_west i` the double received from the west neighbour
in row `i`.  The sends read `u_current` and leave both buffers as they are. -/
def pipelined_sweep (s : Buffers) (i_min i_max j_min j_max north west local1 : Int)
    (omega : ℚ) (msg_north : Int → ℚ) (msg_west : Int → ℚ) : Buffers :=
  forRange i_min i_max (fun i s =>
    forRangeBreak j_min j_max (fun j s =>
      if i = i_min ∧ j = j_min ∧ north ≠ -1 then
        ({ s with u_current := recv_row s.u_current (i_min - 1) j_min local1 msg_north }, true)
      else
        let s := if j = j_min ∧ west ≠ -1 then
            { s with u_current := setCell s.u_current i 0 (msg_west i) }
          else s
        ({ s with
            u_current := setCell s.u_current i j
                          (s.u_previous i j + (s.u_current (i - 1) j + s.u_previous (i + 1) j
                            + s.u_current i (j - 1) + s.u_previous i (j + 1)
                            - 4 * s.u_previous i j) * omega / 4) }, false)) s) s

/-- One iteration of the main loop with the kernel `Jacobi`: the buffers are
swapped, then the kernel runs. -/
def jacobi_iteration (X_min X_max Y_min Y_max : Int) (s : Buffers) : Buffers :=
  Jacobi { u_previous := s.u_current, u_current := s.u_previous } X_min X_max Y_min Y_max

/-- The first `t` iterations of the main loop with the kernel `Jacobi`. -/
def jacobi_run (X_min X_max Y_min Y_max : Int) : Nat → Buffers → Buffers
  | 0, s => s
  | t + 1, s => jacobi_iteration X_min X_max Y_min Y_max (jacobi_run X_min X_max Y_min Y_max t s)

/-- The grid that is zero everywhere except for the value `v` at `(si, sj)`. -/
def spike_grid (si sj : Int) (v : ℚ) : Grid :=
  fun a b => if a = si ∧ b = sj then v else 0

/-- Both buffers after the scatter of the spike grid. -/
def spike_start (si sj : Int) (v : ℚ) : Buffers :=
  { u_previous := spike_grid si sj v, u_current := spike_grid si sj v }

/-! ### Halo exchange: requests -/

/-- The non-blocking operations of the halo exchange of one iteration. -/
inductive HaloOp
  | send_north
  | recv_north
  | send_south
  | recv_south
  | send_east
  | recv_east
  | send_west
  | recv_west
deriving DecidableEq

/-- The four request variables of `main`. -/
inductive Handle
  | mpi_reqns_1
  | mpi_reqns_2
  | mpi_reqew_1
  | mpi_reqew_2
deriving DecidableEq

/-- State of the requests of a process: the operations posted and not yet
completed, and the operation every request variable refers to. -/
structure Requests where
  pending : List HaloOp
  handle : Handle → Option HaloOp

/-- No operation posted, no request variable set. -/
def Requests.init : Requests := { pending := [], handle := fun _ => none }

/-- The calls `MPI_Isend(.., &h)` and `MPI_Irecv(.., &h)`: the operation `op`
is posted and the request variable `h` now refers to it. -/
def MPI_Ipost (op : HaloOp) (h : Handle) (s : Requests) : Requests :=
  { pending := s.pending ++ [op], handle := Function.update s.handle h (some op) }

/-- The call `MPI_Wait(&h, ..)`: the operation `h` refers to is completed and
`h` becomes the null request; on a null request nothing happens. -/
def MPI_Wait (h : Handle) (s : Requests) : Requests :=
  match s.handle h with
  | some op => { pending := s.pending.erase op, handle := Function.update s.handle h none }
  | none => s

/-- The halo exchange of one iteration, on the requests. -/
def halo_exchange (north south east west : Int) (s : Requests) : Requests :=
  let s :=
    if north ≠ -1 ∨ south ≠ -1 then
      let s :=
        if north ≠ -1 then
          MPI_Ipost .recv_north .mpi_reqns_2 (MPI_Ipost .send_north .mpi_reqns_1 s)
        else s
      let s :=
        if south ≠ -1 then
          MPI_Ipost .recv_south .mpi_reqns_1 (MPI_Ipost .send_south .mpi_reqns_2 s)
        else s
      MPI_Wait .mpi_reqns_2 (MPI_Wait .mpi_reqns_1 s)
    else s
  if east ≠ -1 ∨ west ≠ -1 then
    let s :=
      if east ≠ -1 then
        MPI_Ipost .recv_east .mpi_reqew_2 (MPI_Ipost .send_east .mpi_reqew_1 s)
      else s
    let s :=
      if west ≠ -1 then
        MPI_Ipost .recv_west .mpi_reqew_1 (MPI_Ipost .send_west .mpi_reqew_2 s)
      else s
    MPI_Wait .mpi_reqew_2 (MPI_Wait .mpi_reqew_1 s)
  else s

/-! ### Convergence reduction -/

/-- The reduction `MPI_Allreduce(.., MPI_INT, MPI_BAND, ..)` over the flags
`converged` of the processes, in rank order: their bitwise and. -/
def MPI_Allreduce_BAND : List Int → Int
  | [] => -1
  | c :: cs => cs.foldl Int.land c

/-- Modelled from the spec: `converge` of `utils.h` is not part of the
source.  The local convergence flag it returns is boolean, `0` for false and
`1` for true. -/
def is_flag (c : Int) : Prop := c = 0 ∨ c = 1

/-- The loop test `t < T && !global_converged`. -/
def loop_test (t T global_converged : Int) : Bool :=
  decide (t < T) && decide (global_converged = 0)

/-! ### Distribution transport -/

/-- Flat storage of doubles: the value at every address, addresses counted in
doubles from the start of the storage. -/
abbrev Memory := Int → ℚ

/-- Modelled from the spec: `allocate2d` of `utils.h` is not part of the
source.  A two-dimensional array is one contiguous row-major block, so that
`&u[i][j]` lies `i * ncols + j` doubles behind `&u[0][0]`. -/
def cell_address (ncols i j : Int) : Int := i * ncols + j

/-- A derived datatype over `MPI_DOUBLE`: the displacements of its elements in
transfer order and its extent, both counted in doubles. -/
structure Datatype where
  typemap : List Int
  extent : Int

/-- The datatype of `MPI_Type_vector(count, blocklength, stride, MPI_DOUBLE, ..)`:
`count` blocks of `blocklength` doubles, block `r` starting at `r * stride`. -/
def MPI_Type_vector (count blocklength stride : Int) : Datatype :=
  { typemap := (List.range count.toNat).flatMap (fun r : Nat =>
      (List.range blocklength.toNat).map (fun c : Nat => (r : Int) * stride + (c : Int)))
    extent := (count - 1) * stride + blocklength }

/-- The datatype of `MPI_Type_create_resized(t, lb, extent, ..)`: the same
elements with a new lower bound and a new extent. -/
def MPI_Type_create_resized (t : Datatype) (_lb extent : Int) : Datatype :=
  { typemap := t.typemap, extent := extent }

/-- Displacements of the elements of `count` consecutive items of type `t`. -/
def displacements (count : Int) (t : Datatype) : List Int :=
  (List.range count.toNat).flatMap (fun q : Nat =>
    t.typemap.map (fun d => (q : Int) * t.extent + d))

/-- The message read from `count` items of type `t` at address `addr`. -/
def pack (buf : Memory) (addr count : Int) (t : Datatype) : List ℚ :=
  (displacements count t).map (fun d => buf (addr + d))

/-- The storage after a message is stored as `count` items of type `t` at
address `addr`: the `m`-th double goes to the `m`-th displacement. -/
def unpack (buf : Memory) (addr count : Int) (t : Datatype) (msg : List ℚ) : Memory :=
  (((displacements count t).map (fun d => addr + d)).zip msg).foldl
    (fun m w => Function.update m w.1 w.2) buf

/-- The call `MPI_Scatterv` with root `0`: the storage of every rank after
it has received its part of `sendbuf`. -/
def MPI_Scatterv (sendbuf : Memory) (sendcounts displs : Int → Int) (sendtype : Datatype)
    (recvbuf : Int → Memory) (recvaddr recvcount : Int) (recvtype : Datatype) (size : Int) :
    Int → Memory :=
  fun rank =>
    if 0 ≤ rank ∧ rank < size then
      unpack (recvbuf rank) recvaddr recvcount recvtype
        (pack sendbuf (displs rank * sendtype.extent) (sendcounts rank) sendtype)
    else recvbuf rank

/-- The call `MPI_Gatherv` with root `0`: the storage `recvbuf` of the root
after the parts of all ranks have been stored. -/
def MPI_Gatherv (sendbuf : Int → Memory) (sendaddr sendcount : Int) (sendtype : Datatype)
    (recvbuf : Memory) (recvcounts displs : Int → Int) (recvtype : Datatype) (size : Int) :
    Memory :=
  forRange 0 size (fun rank buf =>
    unpack buf (displs rank * recvtype.extent) (recvcounts rank) recvtype
      (pack (sendbuf rank) sendaddr sendcount sendtype)) recvbuf

/-- The datatype `global_block` of `main`; `sizeof(double)` is one double. -/
def global_block (local0 local1 global_padded1 : Int) : Datatype :=
  MPI_Type_create_resized (MPI_Type_vector local0 local1 global_padded1) 0 1

/-- The datatype `local_block` of `main`. -/
def local_block (local0 local1 : Int) : Datatype :=
  MPI_Type_create_resized (MPI_Type_vector local0 local1 (local1 + 2)) 0 1

/-- The arrays `scattercounts` and `scatteroffset` of rank `0`. -/
structure ScatterArrays where
  scattercounts : Int → Int
  scatteroffset : Int → Int

/-- The value `local[0] * local[1] * grid[1] * i + local[1] * j` that rank `0`
stores in `scatteroffset`: `int` products and an `int` sum, evaluated from
left to right. -/
def scatteroffset_value (local0 local1 grid1 i j : Int) : Int :=
  int32 (int32 (int32 (int32 (local0 * local1) * grid1) * i) + int32 (local1 * j))

/-- The loops of rank `0` that fill `scattercounts` and `scatteroffset`. -/
def scatter_arrays (grid0 grid1 local0 local1 : Int) (a : ScatterArrays) : ScatterArrays :=
  forRange 0 grid0 (fun i a =>
    forRange 0 grid1 (fun j a =>
      { scattercounts := Function.update a.scattercounts (i * grid1 + j) 1
        scatteroffset := Function.update a.scatteroffset (i * grid1 + j)
                          (scatteroffset_value local0 local1 grid1 i j) }) a) a

/-- The scatter of `main`: the global array `U` of rank `0` is distributed to
the local buffers `u` of the `size` processes, at `&u[1][1]`. -/
def scatter (global0 global1 grid0 grid1 size : Int) (a : ScatterArrays) (U : Memory)
    (u : Int → Memory) : Int → Memory :=
  MPI_Scatterv U
    (scatter_arrays grid0 grid1 (local_size global0 grid0) (local_size global1 grid1)
      a).scattercounts
    (scatter_arrays grid0 grid1 (local_size global0 grid0) (local_size global1 grid1)
      a).scatteroffset
    (global_block (local_size global0 grid0) (local_size global1 grid1)
      (global_padded global1 grid1))
    u (cell_address (local_size global1 grid1 + 2) 1 1) 1
    (local_block (local_size global0 grid0) (local_size global1 grid1)) size

/-- The gather of `main`: the local buffers `u` are collected from `&u[1][1]`
into the array `U` of rank `0`. -/
def gather (global0 global1 grid0 grid1 size : Int) (a : ScatterArrays) (u : Int → Memory)
    (U : Memory) : Memory :=
  MPI_Gatherv u (cell_address (local_size global1 grid1 + 2) 1 1) 1
    (local_block (local_size global0 grid0) (local_size global1 grid1)) U
    (scatter_arrays grid0 grid1 (local_size global0 grid0) (local_size global1 grid1)
      a).scattercounts
    (scatter_arrays grid0 grid1 (local_size global0 grid0) (local_size global1 grid1)
      a).scatteroffset
    (global_block (local_size global0 grid0) (local_size global1 grid1)
      (global_padded global1 grid1)) size

/-! ### Halo exchange: buffers -/

/-- The datatype `mat_row` of `main`: `local[1]` consecutive doubles. -/
def mat_row (local1 : Int) : Datatype :=
  MPI_Type_create_resized (MPI_Type_vector 1 local1 0) 0 1

/-- The datatype `mat_column` of `main`: `local[0]` doubles, one per row of
the local buffer. -/
def mat_column (local0 local1 : Int) : Datatype :=
  MPI_Type_create_resized (MPI_Type_vector local0 1 (local1 + 2)) 0 1

/-- Addresses, in a local buffer of `local1 + 2` columns, that a transfer of
`count` items of type `t` at `&u[i][j]` sends from or receives into. -/
def transfer_addresses (local1 i j count : Int) (t : Datatype) : List Int :=
  (displacements count t).map (fun d => cell_address (local1 + 2) i j + d)

/-- Whether an operation of the halo exchange is a send. -/
def HaloOp.is_send : HaloOp → Bool
  | .send_north => true
  | .send_south => true
  | .send_east => true
  | .send_west => true
  | _ => false

/-- The operations that the halo exchange of one iteration posts, in order,
each with the addresses of `u_previous` it sends from or receives into. -/
def halo_transfers (north south east west : Int) (b : Bounds) (local0 local1 : Int) :
    List (HaloOp × List Int) :=
  (if north ≠ -1 ∨ south ≠ -1 then
    (if north ≠ -1 then
      [(HaloOp.send_north, transfer_addresses local1 1 1 1 (mat_row local1)),
       (HaloOp.recv_north, transfer_addresses local1 0 1 1 (mat_row local1))]
    else []) ++
    (if south ≠ -1 then
      [(HaloOp.send_south, transfer_addresses local1 (b.i_max - 1) 1 1 (mat_row local1)),
       (HaloOp.recv_south, transfer_addresses local1 b.i_max 1 1 (mat_row local1))]
    else [])
  else []) ++
  (if east ≠ -1 ∨ west ≠ -1 then
    (if east ≠ -1 then
      [(HaloOp.send_east,
          transfer_addresses local1 b.i_min (b.j_max - 1) 1 (mat_column local0 local1)),
       (HaloOp.recv_east,
          transfer_addresses local1 b.i_min b.j_max 1 (mat_column local0 local1))]
    else []) ++
    (if west ≠ -1 then
      [(HaloOp.send_west,
          transfer_addresses local1 b.i_min b.j_min 1 (mat_column local0 local1)),
       (HaloOp.recv_west,
          transfer_addresses local1 b.i_min 0 1 (mat_column local0 local1))]
    else [])
  else [])

/-- The posted operations of the process at coordinates `(x, y)`, everything
taken from the decomposer, the neighbour derivation and the iteration bounds
as `main` does. -/
def process_halo_transfers (global0 global1 grid0 grid1 x y : Int) : List (HaloOp × List Int) :=
  halo_transfers (neighbours grid0 grid1 x y).north (neighbours grid0 grid1 x y).south
    (neighbours grid0 grid1 x y).east (neighbours grid0 grid1 x y).west
    (process_bounds global0 global1 grid0 grid1 x y)
    (local_size global0 grid0) (local_size global1 grid1)

/-- The cell `(i, j)` is owned: rows `1 .. local0`, columns `1 .. local1`. -/
def owned_cell (local0 local1 i j : Int) : Prop :=
  (1 ≤ i ∧ i ≤ local0) ∧ (1 ≤ j ∧ j ≤ local1)

/-- The cell `(i, j)` is one of the four corners of the local buffer. -/
def corner_cell (local0 local1 i j : Int) : Prop :=
  (i = 0 ∨ i = local0 + 1) ∧ (j = 0 ∨ j = local1 + 1)

/-- The cell `(i, j)` is a ghost cell that is not a corner: on exactly one of
the four borders of the local buffer. -/
def edge_ghost_cell (local0 local1 i j : Int) : Prop :=
  ((i = 0 ∨ i = local0 + 1) ∧ (1 ≤ j ∧ j ≤ local1)) ∨
    ((1 ≤ i ∧ i ≤ local0) ∧ (j = 0 ∨ j = local1 + 1))

/-! ## Theorems -/

/-! ### The decomposition loop -/

theorem decompose_of_dvd {G P : Int} (h : Int.tmod G P = 0) :
    decompose G P = (Int.tdiv G P, G) := by
  simp [decompose, h]

theorem decompose_of_not_dvd {G P : Int} (h : Int.tmod G P ≠ 0) :
    decompose G P = (Int.tdiv G P + 1, int32 ((Int.tdiv G P + 1) * P)) := by
  simp [decompose, h]

/-- Division with remainder in the form the decomposer needs. -/
theorem tdiv_tmod_spec {G P : Int} (hG : 0 ≤ G) (hP : 1 ≤ P) :
    Int.tdiv G P * P + Int.tmod G P = G ∧ 0 ≤ Int.tmod G P ∧ Int.tmod G P < P ∧
      0 ≤ Int.tdiv G P := by
  have hP0 : (0 : Int) ≤ P := by omega
  rw [Int.tdiv_eq_ediv hG hP0, Int.tmod_eq_emod hG hP0]
  refine ⟨?_, Int.emod_nonneg _ (by omega), Int.emod_lt_of_pos _ (by omega),
    Int.ediv_nonneg hG hP0⟩
  have := Int.ediv_add_emod G P
  linarith [mul_comm P (G / P)]

/-! ### Arithmetic of the type `int` -/

/-- A value in the range of `int` is its own `int` value. -/
theorem int32_of_fits {n : Int} (h1 : -2147483648 ≤ n) (h2 : n ≤ INT_MAX) : int32 n = n := by
  unfold INT_MAX at h2
  unfold int32
  omega

theorem int32_spec (n : Int) : ∃ k, int32 n = n + 4294967296 * k :=
  ⟨-((n + 2147483648) / 4294967296), by unfold int32; omega⟩

theorem int32_add_mul (n m : Int) : int32 (n + 4294967296 * m) = int32 n := by
  unfold int32
  rw [show n + 4294967296 * m + 2147483648 = n + 2147483648 + 4294967296 * m by ring,
    Int.add_mul_emod_self_left]

theorem int32_sub_left (a b : Int) : int32 (int32 a - b) = int32 (a - b) := by
  obtain ⟨k, hk⟩ := int32_spec a
  rw [hk, show a + 4294967296 * k - b = a - b + 4294967296 * k by ring, int32_add_mul]

theorem int32_add_both (a b : Int) : int32 (int32 a + int32 b) = int32 (a + b) := by
  obtain ⟨k, hk⟩ := int32_spec a
  obtain ⟨m, hm⟩ := int32_spec b
  rw [hk, hm, show a + 4294967296 * k + (b + 4294967296 * m) = a + b + 4294967296 * (k + m)
    by ring, int32_add_mul]

/-! ### Arithmetic of the decomposer -/

theorem local_size_nonneg {G P : Int} (hG : 0 ≤ G) (hP : 1 ≤ P) :
    0 ≤ local_size G P := by
  obtain ⟨-, -, -, h4⟩ := tdiv_tmod_spec hG hP
  unfold local_size
  by_cases h : Int.tmod G P = 0
  · rw [decompose_of_dvd h]; exact h4
  · rw [decompose_of_not_dvd h]; simp only; omega

theorem global_le_padded {G P : Int} (hG : 0 ≤ G) (hP : 1 ≤ P) :
    G ≤ local_size G P * P := by
  obtain ⟨h1, h2, h3, -⟩ := tdiv_tmod_spec hG hP
  unfold local_size
  by_cases h : Int.tmod G P = 0
  · rw [decompose_of_dvd h]
    simp only
    rw [h] at h1
    linarith
  · rw [decompose_of_not_dvd h]
    simp only
    linarith [add_mul (Int.tdiv G P) 1 P]

theorem padded_eq_global_iff {G P : Int} (hG : 0 ≤ G) (hP : 1 ≤ P) :
    local_size G P * P = G ↔ Int.tmod G P = 0 := by
  obtain ⟨h1, h2, h3, -⟩ := tdiv_tmod_spec hG hP
  unfold local_size
  by_cases h : Int.tmod G P = 0
  · rw [decompose_of_dvd h]
    simp only [h, iff_true]
    rw [h] at h1
    linarith
  · rw [decompose_of_not_dvd h]
    simp only [h, iff_false]
    intro hc
    have := add_mul (Int.tdiv G P) 1 P
    omega

/-- The local size of a non-empty axis is positive. -/
theorem local_size_pos {G P : Int} (hG : 1 ≤ G) (hP : 1 ≤ P) : 1 ≤ local_size G P := by
  have h := global_le_padded (show 0 ≤ G by omega) hP
  by_contra hc
  have := mul_nonpos_of_nonpos_of_nonneg (show local_size G P ≤ 0 by omega)
    (show 0 ≤ P by omega)
  omega

/-- The local blocks exceed the global extent by less than one process-grid
extent. -/
theorem padded_sub_global {G P : Int} (hG : 0 ≤ G) (hP : 1 ≤ P) :
    0 ≤ local_size G P * P - G ∧ local_size G P * P - G < P := by
  obtain ⟨h1, h2, h3, -⟩ := tdiv_tmod_spec hG hP
  unfold local_size
  by_cases h : Int.tmod G P = 0
  · rw [decompose_of_dvd h]; simp only; omega
  · rw [decompose_of_not_dvd h]
    simp only
    have := add_mul (Int.tdiv G P) 1 P
    omega

/-- The padded extent is the local size times the process-grid extent when
this product is in the range of `int`. -/
theorem global_padded_eq {G P : Int} (hG : 0 ≤ G) (hP : 1 ≤ P)
    (hfit : local_size G P * P ≤ INT_MAX) :
    global_padded G P = local_size G P * P := by
  obtain ⟨h1, -, -, -⟩ := tdiv_tmod_spec hG hP
  have hle := global_le_padded hG hP
  unfold global_padded
  unfold local_size at hfit hle ⊢
  by_cases h : Int.tmod G P = 0
  · rw [decompose_of_dvd h]
    simp only
    rw [h] at h1
    linarith
  · rw [decompose_of_not_dvd h] at hfit hle ⊢
    simp only at hfit hle ⊢
    exact int32_of_fits (by omega) hfit

/-- The `int` difference `global_padded - global` is the excess of the local
blocks over the global extent, for every process-grid extent of type `int`. -/
theorem padding_eq {G P : Int} (hG : 0 ≤ G) (hP : 1 ≤ P) (hPmax : P ≤ INT_MAX) :
    padding G P = local_size G P * P - G := by
  obtain ⟨h1, -, -, -⟩ := tdiv_tmod_spec hG hP
  obtain ⟨b1, b2⟩ := padded_sub_global hG hP
  unfold padding global_padded
  unfold local_size at b1 b2 ⊢
  by_cases h : Int.tmod G P = 0
  · rw [decompose_of_dvd h] at b1 b2 ⊢
    simp only at b1 b2 ⊢
    rw [h] at h1
    rw [int32_of_fits (by omega) (by unfold INT_MAX; omega)]
    omega
  · rw [decompose_of_not_dvd h] at b1 b2 ⊢
    simp only at b1 b2 ⊢
    rw [int32_sub_left]
    exact int32_of_fits (by omega) (by omega)

/-- C1 (counterexample). With the global extent `2147483647` on `2` processes
the local size is `1073741824` and the `int` product `local * grid` is
`-2147483648`: the padded extent is below the global extent. -/
theorem C1_padded_extent_overflows :
    (1 : Int) ≤ 2147483647 ∧ (2147483647 : Int) ≤ INT_MAX ∧
    local_size 2147483647 2 = 1073741824 ∧
    int32 (local_size 2147483647 2 * 2) = -2147483648 ∧
    global_padded 2147483647 2 = -2147483648 ∧
    ¬ ((2147483647 : Int) ≤ global_padded 2147483647 2) := by
  decide

/-- C1 (amended). Per axis, for every global extent `G ≥ 1` and process-grid
extent `P ≥ 1` whose product `L * P` of local size and process-grid extent is
in the range of `int`, the local size `L` is `G / P` when `G mod P = 0` and
`G / P + 1` otherwise, it satisfies `L * P ≥ G` with equality exactly when
`G mod P = 0`, the `int` product `local * grid` is `L * P`, and the padded
extent equals `L * P` in both branches. -/
theorem C1_decomposer_divisibility (G P : Int) (hG : 1 ≤ G) (hP : 1 ≤ P)
    (hfit : local_size G P * P ≤ INT_MAX) :
    local_size G P = (if Int.tmod G P = 0 then Int.tdiv G P else Int.tdiv G P + 1) ∧
      G ≤ local_size G P * P ∧
      (local_size G P * P = G ↔ Int.tmod G P = 0) ∧
      int32 (local_size G P * P) = local_size G P * P ∧
      global_padded G P = local_size G P * P := by
  have hG0 : (0 : Int) ≤ G := by omega
  have hle := global_le_padded hG0 hP
  refine ⟨?_, hle, padded_eq_global_iff hG0 hP, int32_of_fits (by omega) hfit,
    global_padded_eq hG0 hP hfit⟩
  unfold local_size decompose
  split <;> rfl

/-- C1 (amended) at the extents `G = 10`, `P = 4` (local size `3`, padded
extent `12`). -/
theorem C1_decomposer_divisibility_witness :
    local_size 10 4 = (if Int.tmod 10 4 = 0 then Int.tdiv 10 4 else Int.tdiv 10 4 + 1) ∧
      (10 : Int) ≤ local_size 10 4 * 4 ∧
      (local_size 10 4 * 4 = 10 ↔ Int.tmod 10 4 = 0) ∧
      int32 (local_size 10 4 * 4) = local_size 10 4 * 4 ∧
      global_padded 10 4 = local_size 10 4 * 4 :=
  C1_decomposer_divisibility 10 4 (by decide) (by decide) (by decide)

/-- The padding is never negative and always smaller than the process-grid
extent. -/
theorem padding_nonneg_lt_grid {G P : Int} (hG : 0 ≤ G) (hP : 1 ≤ P) (hPmax : P ≤ INT_MAX) :
    0 ≤ padding G P ∧ padding G P < P := by
  rw [padding_eq hG hP hPmax]
  exact padded_sub_global hG hP

/-- The padding is smaller than the local size exactly when the extent
divides evenly or the quotient and the remainder together reach the
process-grid extent. -/
theorem padding_lt_local_iff {G P : Int} (hG : 1 ≤ G) (hP : 1 ≤ P) (hPmax : P ≤ INT_MAX) :
    padding G P < local_size G P ↔
      Int.tmod G P = 0 ∨ P ≤ Int.tdiv G P + Int.tmod G P := by
  obtain ⟨h1, h2, h3, h4⟩ := tdiv_tmod_spec (show 0 ≤ G by omega) hP
  rw [padding_eq (show 0 ≤ G by omega) hP hPmax]
  unfold local_size
  by_cases h : Int.tmod G P = 0
  · rw [decompose_of_dvd h]
    simp only [h, true_or, iff_true]
    rw [h] at h1
    have hq : 0 < Int.tdiv G P := by
      by_contra hc
      have : Int.tdiv G P = 0 := by omega
      rw [this] at h1
      omega
    omega
  · rw [decompose_of_not_dvd h]
    simp only [h, false_or]
    have := add_mul (Int.tdiv G P) 1 P
    constructor <;> intro _ <;> omega

/-- C2 (counterexample). With global extent `5` on a process grid of extent `4`
the decomposer computes local size `2` and padding `3`, so the padding is not
smaller than the local size, and the last process of the axis gets the upper
bound `-1`, below its lower bound `1`. -/
theorem C2_padding_exceeds_local_size :
    local_size 5 4 = 2 ∧ padding 5 4 = 3 ∧ ¬ (padding 5 4 < local_size 5 4) ∧
      (process_bounds 5 5 4 1 3 0).i_min = 1 ∧ (process_bounds 5 5 4 1 3 0).i_max = -1 := by
  decide

/-! ### Neighbour topology -/

/-- The row-major numbering is injective on valid column coordinates. -/
theorem cart_rank_inj {P x y x' y' : Int} (hy : 0 ≤ y ∧ y < P) (hy' : 0 ≤ y' ∧ y' < P)
    (h : x * P + y = x' * P + y') : x = x' ∧ y = y' := by
  have hP : 0 ≤ P := by omega
  rcases lt_trichotomy x x' with hlt | heq | hgt
  · have := mul_le_mul_of_nonneg_right (show x + 1 ≤ x' by omega) hP
    have := add_mul x 1 P
    omega
  · subst heq
    exact ⟨rfl, by omega⟩
  · have := mul_le_mul_of_nonneg_right (show x' + 1 ≤ x by omega) hP
    have := add_mul x' 1 P
    omega

/-- Ranks of valid coordinates are never negative, hence never `-1`. -/
theorem cart_rank_nonneg {P x y : Int} (hx : 0 ≤ x) (hy : 0 ≤ y) (hP : 0 ≤ P) :
    0 ≤ MPI_Cart_rank P x y := by
  have := mul_nonneg hx hP
  unfold MPI_Cart_rank
  omega

theorem north_eq_neg_one_iff {Px Py x y : Int} (hy : 0 ≤ y ∧ y < Py) :
    (neighbours Px Py x y).north = -1 ↔ x - 1 < 0 := by
  unfold neighbours
  simp only
  split_ifs with h
  · have := cart_rank_nonneg (show 0 ≤ x - 1 by omega) hy.1 (show 0 ≤ Py by omega)
    constructor <;> intro _ <;> omega
  · constructor <;> intro _ <;> omega

theorem south_eq_neg_one_iff {Px Py x y : Int} (hx : 0 ≤ x) (hy : 0 ≤ y ∧ y < Py) :
    (neighbours Px Py x y).south = -1 ↔ Px - 1 < x + 1 := by
  unfold neighbours
  simp only
  split_ifs with h
  · have := cart_rank_nonneg (show 0 ≤ x + 1 by omega) hy.1 (show 0 ≤ Py by omega)
    constructor <;> intro _ <;> omega
  · constructor <;> intro _ <;> omega

theorem east_eq_neg_one_iff {Px Py x y : Int} (hx : 0 ≤ x) (hy : 0 ≤ y ∧ y < Py) :
    (neighbours Px Py x y).east = -1 ↔ Py - 1 < y + 1 := by
  unfold neighbours
  simp only
  split_ifs with h
  · have := cart_rank_nonneg hx (show 0 ≤ y + 1 by omega) (show 0 ≤ Py by omega)
    constructor <;> intro _ <;> omega
  · constructor <;> intro _ <;> omega

theorem west_eq_neg_one_iff {Px Py x y : Int} (hx : 0 ≤ x) (hy : 0 ≤ y ∧ y < Py) :
    (neighbours Px Py x y).west = -1 ↔ y - 1 < 0 := by
  unfold neighbours
  simp only
  split_ifs with h
  · have := cart_rank_nonneg hx (show 0 ≤ y - 1 by omega) (show 0 ≤ Py by omega)
    constructor <;> intro _ <;> omega
  · constructor <;> intro _ <;> omega

/-- The east neighbour of `A` is `B` exactly when `B` is one column to the
right of `A` in the same row. -/
theorem east_eq_rank_iff {Px Py ax ay bx b_y : Int} (hA : 0 ≤ ax ∧ 0 ≤ ay ∧ ay < Py)
    (hB : 0 ≤ bx ∧ 0 ≤ b_y ∧ b_y < Py) :
    (neighbours Px Py ax ay).east = MPI_Cart_rank Py bx b_y ↔ bx = ax ∧ b_y = ay + 1 := by
  have hr := cart_rank_nonneg hB.1 hB.2.1 (show 0 ≤ Py by omega)
  unfold neighbours
  simp only
  split_ifs with h
  · unfold MPI_Cart_rank
    constructor
    · intro he
      have := cart_rank_inj (show 0 ≤ ay + 1 ∧ ay + 1 < Py by omega) ⟨hB.2.1, hB.2.2⟩ he
      omega
    · rintro ⟨rfl, rfl⟩; rfl
  · constructor
    · intro he; omega
    · rintro ⟨-, h2⟩; omega

theorem west_eq_rank_iff {Px Py ax ay bx b_y : Int} (hA : 0 ≤ ax ∧ 0 ≤ ay ∧ ay < Py)
    (hB : 0 ≤ bx ∧ 0 ≤ b_y ∧ b_y < Py) :
    (neighbours Px Py bx b_y).west = MPI_Cart_rank Py ax ay ↔ bx = ax ∧ b_y = ay + 1 := by
  have hr := cart_rank_nonneg hA.1 hA.2.1 (show 0 ≤ Py by omega)
  unfold neighbours
  simp only
  split_ifs with h
  · unfold MPI_Cart_rank
    constructor
    · intro he
      have := cart_rank_inj (show 0 ≤ b_y - 1 ∧ b_y - 1 < Py by omega) ⟨hA.2.1, hA.2.2⟩ he
      omega
    · rintro ⟨rfl, rfl⟩; simp
  · constructor
    · intro he; omega
    · rintro ⟨-, h2⟩; omega

theorem south_eq_rank_iff {Px Py ax ay bx b_y : Int} (hA : 0 ≤ ax ∧ ax < Px ∧ 0 ≤ ay ∧ ay < Py)
    (hB : 0 ≤ bx ∧ bx < Px ∧ 0 ≤ b_y ∧ b_y < Py) :
    (neighbours Px Py ax ay).south = MPI_Cart_rank Py bx b_y ↔ bx = ax + 1 ∧ b_y = ay := by
  have hr := cart_rank_nonneg hB.1 hB.2.2.1 (show 0 ≤ Py by omega)
  unfold neighbours
  simp only
  split_ifs with h
  · unfold MPI_Cart_rank
    constructor
    · intro he
      have := cart_rank_inj ⟨hA.2.2.1, hA.2.2.2⟩ ⟨hB.2.2.1, hB.2.2.2⟩ he
      omega
    · rintro ⟨rfl, rfl⟩; rfl
  · constructor
    · intro he; omega
    · rintro ⟨h1, -⟩; omega

theorem north_eq_rank_iff {Px Py ax ay bx b_y : Int} (hA : 0 ≤ ax ∧ ax < Px ∧ 0 ≤ ay ∧ ay < Py)
    (hB : 0 ≤ bx ∧ bx < Px ∧ 0 ≤ b_y ∧ b_y < Py) :
    (neighbours Px Py bx b_y).north = MPI_Cart_rank Py ax ay ↔ bx = ax + 1 ∧ b_y = ay := by
  have hr := cart_rank_nonneg hA.1 hA.2.2.1 (show 0 ≤ Py by omega)
  unfold neighbours
  simp only
  split_ifs with h
  · unfold MPI_Cart_rank
    constructor
    · intro he
      have := cart_rank_inj ⟨hB.2.2.1, hB.2.2.2⟩ ⟨hA.2.2.1, hA.2.2.2⟩ he
      omega
    · rintro ⟨rfl, rfl⟩; simp
  · constructor
    · intro he; omega
    · rintro ⟨h1, -⟩; omega

/-- C4. On a `Px × Py` process grid with the row-major rank `x * Py + y`, for
all valid coordinates `A` and `B`: `B` is the east neighbour of `A` exactly
when `A` is the west neighbour of `B`, `B` is the south neighbour of `A`
exactly when `A` is the north neighbour of `B`, and each of the four
neighbours of `A` is `-1` exactly when the step leaves the process grid. -/
theorem C4_neighbour_symmetry (Px Py ax ay bx b_y : Int)
    (hA : 0 ≤ ax ∧ ax < Px ∧ 0 ≤ ay ∧ ay < Py)
    (hB : 0 ≤ bx ∧ bx < Px ∧ 0 ≤ b_y ∧ b_y < Py) :
    ((neighbours Px Py ax ay).east = MPI_Cart_rank Py bx b_y ↔
        (neighbours Px Py bx b_y).west = MPI_Cart_rank Py ax ay) ∧
      ((neighbours Px Py ax ay).south = MPI_Cart_rank Py bx b_y ↔
        (neighbours Px Py bx b_y).north = MPI_Cart_rank Py ax ay) ∧
      ((neighbours Px Py ax ay).north = -1 ↔ ¬ (0 ≤ ax - 1 ∧ ax - 1 < Px)) ∧
      ((neighbours Px Py ax ay).south = -1 ↔ ¬ (0 ≤ ax + 1 ∧ ax + 1 < Px)) ∧
      ((neighbours Px Py ax ay).east = -1 ↔ ¬ (0 ≤ ay + 1 ∧ ay + 1 < Py)) ∧
      ((neighbours Px Py ax ay).west = -1 ↔ ¬ (0 ≤ ay - 1 ∧ ay - 1 < Py)) := by
  obtain ⟨a1, a2, a3, a4⟩ := hA
  obtain ⟨b1, b2, b3, b4⟩ := hB
  refine ⟨?_, ?_, ?_, ?_, ?_, ?_⟩
  · rw [east_eq_rank_iff ⟨a1, a3, a4⟩ ⟨b1, b3, b4⟩, west_eq_rank_iff ⟨a1, a3, a4⟩ ⟨b1, b3, b4⟩]
  · rw [south_eq_rank_iff ⟨a1, a2, a3, a4⟩ ⟨b1, b2, b3, b4⟩,
      north_eq_rank_iff ⟨a1, a2, a3, a4⟩ ⟨b1, b2, b3, b4⟩]
  · rw [north_eq_neg_one_iff ⟨a3, a4⟩]; omega
  · rw [south_eq_neg_one_iff a1 ⟨a3, a4⟩]; omega
  · rw [east_eq_neg_one_iff a1 ⟨a3, a4⟩]; omega
  · rw [west_eq_neg_one_iff a1 ⟨a3, a4⟩]; omega

/-- C4 on the `2 × 3` process grid, at `A = (0, 1)` and its east neighbour
`B = (0, 2)`. -/
theorem C4_neighbour_symmetry_witness :
    ((neighbours 2 3 0 1).east = MPI_Cart_rank 3 0 2 ↔
        (neighbours 2 3 0 2).west = MPI_Cart_rank 3 0 1) ∧
      ((neighbours 2 3 0 1).south = MPI_Cart_rank 3 0 2 ↔
        (neighbours 2 3 0 2).north = MPI_Cart_rank 3 0 1) ∧
      ((neighbours 2 3 0 1).north = -1 ↔ ¬ ((0 : Int) ≤ 0 - 1 ∧ (0 : Int) - 1 < 2)) ∧
      ((neighbours 2 3 0 1).south = -1 ↔ ¬ ((0 : Int) ≤ 0 + 1 ∧ (0 : Int) + 1 < 2)) ∧
      ((neighbours 2 3 0 1).east = -1 ↔ ¬ ((0 : Int) ≤ 1 + 1 ∧ (1 : Int) + 1 < 3)) ∧
      ((neighbours 2 3 0 1).west = -1 ↔ ¬ ((0 : Int) ≤ 1 - 1 ∧ (1 : Int) - 1 < 3)) :=
  C4_neighbour_symmetry 2 3 0 1 0 2 (by decide) (by decide)

/-! ### Iteration bounds -/

/-- Row bounds of the process at valid coordinates `(x, y)`. -/
theorem process_bounds_rows (G0 G1 : Int) {P0 P1 x y : Int} (hx : 0 ≤ x ∧ x < P0)
    (hy : 0 ≤ y ∧ y < P1) :
    (process_bounds G0 G1 P0 P1 x y).i_min = (if x = 0 then 2 else 1) ∧
      (process_bounds G0 G1 P0 P1 x y).i_max =
        (if x = P0 - 1 then local_size G0 P0 - padding G0 P0
          else local_size G0 P0 + 1) := by
  have hn := @north_eq_neg_one_iff P0 P1 x y hy
  have hs := @south_eq_neg_one_iff P0 P1 x y hx.1 hy
  unfold process_bounds iteration_bounds padding
  simp only
  constructor
  · by_cases h0 : x = 0
    · rw [if_pos (hn.2 (by omega)), if_pos h0]; rfl
    · rw [if_neg (fun h => by have := hn.1 h; omega), if_neg h0]
  · by_cases h1 : x = P0 - 1
    · rw [if_pos h1, if_pos (hs.2 (by omega)), if_pos h1]; ring
    · rw [if_neg h1, if_neg (fun h => by have := hs.1 h; omega), if_neg h1]

/-- Column bounds of the process at valid coordinates `(x, y)`. -/
theorem process_bounds_cols (G0 G1 : Int) {P0 P1 x y : Int} (hx : 0 ≤ x ∧ x < P0)
    (hy : 0 ≤ y ∧ y < P1) :
    (process_bounds G0 G1 P0 P1 x y).j_min = (if y = 0 then 2 else 1) ∧
      (process_bounds G0 G1 P0 P1 x y).j_max =
        (if y = P1 - 1 then local_size G1 P1 - padding G1 P1
          else local_size G1 P1 + 1) := by
  have hw := @west_eq_neg_one_iff P0 P1 x y hx.1 hy
  have he := @east_eq_neg_one_iff P0 P1 x y hx.1 hy
  unfold process_bounds iteration_bounds padding
  simp only
  constructor
  · by_cases h0 : y = 0
    · rw [if_pos (hw.2 (by omega)), if_pos h0]; rfl
    · rw [if_neg (fun h => by have := hw.1 h; omega), if_neg h0]
  · by_cases h1 : y = P1 - 1
    · rw [if_pos h1, if_pos (he.2 (by omega)), if_pos h1]; ring
    · rw [if_neg h1, if_neg (fun h => by have := he.1 h; omega), if_neg h1]

/-- Covering along one axis: with local size `L`, process-grid extent `P` and
global extent `G`, the ranges `lo x ≤ i < hi x` of the `P` processes map onto
the global indices `1 .. G - 2`. -/
theorem axis_cover {L P G : Int} (hP : 1 ≤ P) (hLP : G ≤ L * P)
    (hpad : L * P - G < L) (g : Int) :
    (∃ x i, (0 ≤ x ∧ x < P) ∧ (if x = 0 then 2 else 1) ≤ i ∧
        i < (if x = P - 1 then L - (L * P - G) else L + 1) ∧ g = x * L + (i - 1)) ↔
      1 ≤ g ∧ g ≤ G - 2 := by
  have hL : 1 ≤ L := by
    by_contra hc
    have : L * P ≤ 0 := mul_nonpos_of_nonpos_of_nonneg (by omega) (by omega)
    omega
  have hPL : (P - 1) * L = L * P - L := by ring
  constructor
  · rintro ⟨x, i, ⟨hx0, hxP⟩, hlo, hhi, rfl⟩
    constructor
    · by_cases h0 : x = 0
      · subst h0; rw [if_pos rfl] at hlo; omega
      · rw [if_neg h0] at hlo
        have := mul_le_mul_of_nonneg_right (show 1 ≤ x by omega) (show 0 ≤ L by omega)
        omega
    · by_cases h1 : x = P - 1
      · subst h1; rw [if_pos rfl] at hhi; omega
      · rw [if_neg h1] at hhi
        have := mul_le_mul_of_nonneg_right (show x ≤ P - 2 by omega) (show 0 ≤ L by omega)
        have : (P - 2) * L = L * P - 2 * L := by ring
        omega
  · rintro ⟨h1, h2⟩
    have hd := Int.ediv_add_emod g L
    have hr0 := Int.emod_nonneg g (show L ≠ 0 by omega)
    have hr1 := Int.emod_lt_of_pos g (show 0 < L by omega)
    have hq0 : 0 ≤ g / L := Int.ediv_nonneg (by omega) (by omega)
    have hqP : g / L < P := Int.ediv_lt_of_lt_mul (by omega) (by rw [mul_comm]; omega)
    refine ⟨g / L, g % L + 1, ⟨hq0, hqP⟩, ?_, ?_, ?_⟩
    · by_cases h0 : g / L = 0
      · rw [if_pos h0]; rw [h0] at hd; omega
      · rw [if_neg h0]; omega
    · by_cases hl : g / L = P - 1
      · rw [if_pos hl]; rw [hl] at hd
        have : L * (P - 1) = L * P - L := by ring
        omega
      · rw [if_neg hl]; omega
    · have := mul_comm L (g / L)
      omega

/-- Along one axis no global index is produced by two different pairs of a
process coordinate and a local index. -/
theorem axis_unique {L P G : Int} (hLP : G ≤ L * P) {x i x' i' : Int}
    (hi : (if x = 0 then 2 else 1) ≤ i ∧
      i < (if x = P - 1 then L - (L * P - G) else L + 1))
    (hi' : (if x' = 0 then 2 else 1) ≤ i' ∧
      i' < (if x' = P - 1 then L - (L * P - G) else L + 1))
    (h : x * L + (i - 1) = x' * L + (i' - 1)) : x = x' ∧ i = i' := by
  have b : 0 ≤ i - 1 ∧ i - 1 < L := by
    obtain ⟨h1, h2⟩ := hi
    split_ifs at h1 h2 <;> omega
  have b' : 0 ≤ i' - 1 ∧ i' - 1 < L := by
    obtain ⟨h1, h2⟩ := hi'
    split_ifs at h1 h2 <;> omega
  have := cart_rank_inj b b' h
  omega

/-- C2 (amended). Per axis, for every global extent `G ≥ 1` and process-grid
extent `P ≥ 1` of type `int`, the padding is not negative and strictly smaller than the
process-grid extent `P`; it is strictly smaller than the local size exactly
when `G mod P = 0` or `P ≤ G / P + G mod P`; and when it is, and `G ≥ 2`, the
upper iteration bound of the last process of the axis is not below its lower
bound, for rows and for columns. -/
theorem C2_padding_bound (G P : Int) (hG : 1 ≤ G) (hP : 1 ≤ P) (hPmax : P ≤ INT_MAX) :
    (0 ≤ padding G P ∧ padding G P < P) ∧
    (padding G P < local_size G P ↔
      Int.tmod G P = 0 ∨ P ≤ Int.tdiv G P + Int.tmod G P) ∧
    (2 ≤ G → padding G P < local_size G P →
      (∀ G1 P1 y, 0 ≤ y ∧ y < P1 →
        (process_bounds G G1 P P1 (P - 1) y).i_min ≤
          (process_bounds G G1 P P1 (P - 1) y).i_max) ∧
      (∀ G0 P0 x, 0 ≤ x ∧ x < P0 →
        (process_bounds G0 G P0 P x (P - 1)).j_min ≤
          (process_bounds G0 G P0 P x (P - 1)).j_max)) := by
  have hG0 : (0 : Int) ≤ G := by omega
  refine ⟨padding_nonneg_lt_grid hG0 hP hPmax, padding_lt_local_iff hG hP hPmax,
    fun hG2 hlt => ?_⟩
  have e := padding_eq hG0 hP hPmax
  have key : (if P - 1 = 0 then (2 : Int) else 1) ≤
      (if P - 1 = P - 1 then local_size G P - padding G P
        else local_size G P + 1) := by
    rw [if_pos rfl]
    by_cases h1 : P - 1 = 0
    · rw [if_pos h1]
      have hP1 : P = 1 := by omega
      have h2 : local_size G P * P = local_size G P * 1 := congrArg _ hP1
      rw [mul_one] at h2
      omega
    · rw [if_neg h1]; omega
  constructor
  · intro G1 P1 y hy
    obtain ⟨r1, r2⟩ := process_bounds_rows G G1
      (show 0 ≤ P - 1 ∧ P - 1 < P by omega) hy
    rw [r1, r2]
    exact key
  · intro G0 P0 x hx
    obtain ⟨r1, r2⟩ := process_bounds_cols G0 G hx
      (show 0 ≤ P - 1 ∧ P - 1 < P by omega)
    rw [r1, r2]
    exact key

/-- C2 (amended) at the extents `G = 10`, `P = 4` (local size `3`, padding
`2`), with the other axis of extent `10` on one process. -/
theorem C2_padding_bound_witness :
    (0 ≤ padding 10 4 ∧ padding 10 4 < 4) ∧
    (padding 10 4 < local_size 10 4 ↔
      Int.tmod 10 4 = 0 ∨ (4 : Int) ≤ Int.tdiv 10 4 + Int.tmod 10 4) ∧
    ((process_bounds 10 10 4 1 (4 - 1) 0).i_min ≤ (process_bounds 10 10 4 1 (4 - 1) 0).i_max) ∧
    ((process_bounds 10 10 1 4 0 (4 - 1)).j_min ≤ (process_bounds 10 10 1 4 0 (4 - 1)).j_max) :=
  ⟨(C2_padding_bound 10 4 (by decide) (by decide) (by decide)).1,
    (C2_padding_bound 10 4 (by decide) (by decide) (by decide)).2.1,
    ((C2_padding_bound 10 4 (by decide) (by decide) (by decide)).2.2 (by decide) (by decide)).1 10 1 0
      (by decide),
    ((C2_padding_bound 10 4 (by decide) (by decide) (by decide)).2.2 (by decide) (by decide)).2 10 1 0
      (by decide)⟩

/-- C10. Per axis, for global extents `G ≥ 2` and process-grid extents `P ≥ 1`
of type `int` whose padding is smaller than the local size `L`, the global indices
`x * L + (i - 1)` reached by the processes `x` over their iteration ranges
`i_min ≤ i < i_max` (rows), respectively `j_min ≤ j < j_max` (columns), are
exactly the indices `1 .. G - 2`, and each is reached by exactly one pair of a
process coordinate and a local index. -/
theorem C10_iteration_bounds_cover_interior (G0 G1 P0 P1 : Int)
    (hG0 : 2 ≤ G0) (hG1 : 2 ≤ G1) (hP0 : 1 ≤ P0) (hP1 : 1 ≤ P1)
    (hP0max : P0 ≤ INT_MAX) (hP1max : P1 ≤ INT_MAX)
    (hpad0 : padding G0 P0 < local_size G0 P0) (hpad1 : padding G1 P1 < local_size G1 P1) :
    (∀ y, 0 ≤ y ∧ y < P1 →
      (∀ g, (∃ x i, (0 ≤ x ∧ x < P0) ∧ (process_bounds G0 G1 P0 P1 x y).i_min ≤ i ∧
            i < (process_bounds G0 G1 P0 P1 x y).i_max ∧ g = x * local_size G0 P0 + (i - 1)) ↔
          1 ≤ g ∧ g ≤ G0 - 2) ∧
      (∀ x i x' i', (0 ≤ x ∧ x < P0) → (0 ≤ x' ∧ x' < P0) →
          ((process_bounds G0 G1 P0 P1 x y).i_min ≤ i ∧
            i < (process_bounds G0 G1 P0 P1 x y).i_max) →
          ((process_bounds G0 G1 P0 P1 x' y).i_min ≤ i' ∧
            i' < (process_bounds G0 G1 P0 P1 x' y).i_max) →
          x * local_size G0 P0 + (i - 1) = x' * local_size G0 P0 + (i' - 1) →
          x = x' ∧ i = i')) ∧
    (∀ x, 0 ≤ x ∧ x < P0 →
      (∀ g, (∃ y j, (0 ≤ y ∧ y < P1) ∧ (process_bounds G0 G1 P0 P1 x y).j_min ≤ j ∧
            j < (process_bounds G0 G1 P0 P1 x y).j_max ∧ g = y * local_size G1 P1 + (j - 1)) ↔
          1 ≤ g ∧ g ≤ G1 - 2) ∧
      (∀ y j y' j', (0 ≤ y ∧ y < P1) → (0 ≤ y' ∧ y' < P1) →
          ((process_bounds G0 G1 P0 P1 x y).j_min ≤ j ∧
            j < (process_bounds G0 G1 P0 P1 x y).j_max) →
          ((process_bounds G0 G1 P0 P1 x y').j_min ≤ j' ∧
            j' < (process_bounds G0 G1 P0 P1 x y').j_max) →
          y * local_size G1 P1 + (j - 1) = y' * local_size G1 P1 + (j' - 1) →
          y = y' ∧ j = j')) := by
  have e0 := padding_eq (show 0 ≤ G0 by omega) hP0 hP0max
  have e1 := padding_eq (show 0 ≤ G1 by omega) hP1 hP1max
  have l0 := global_le_padded (show 0 ≤ G0 by omega) hP0
  have l1 := global_le_padded (show 0 ≤ G1 by omega) hP1
  rw [e0] at hpad0
  rw [e1] at hpad1
  constructor
  · intro y hy
    constructor
    · intro g
      rw [← axis_cover hP0 l0 hpad0 g]
      constructor
      · rintro ⟨x, i, hx, h1, h2, h3⟩
        obtain ⟨r1, r2⟩ := process_bounds_rows G0 G1 hx hy
        rw [r1] at h1
        rw [r2, e0] at h2
        exact ⟨x, i, hx, h1, h2, h3⟩
      · rintro ⟨x, i, hx, h1, h2, h3⟩
        obtain ⟨r1, r2⟩ := process_bounds_rows G0 G1 hx hy
        refine ⟨x, i, hx, ?_, ?_, h3⟩
        · rw [r1]; exact h1
        · rw [r2, e0]; exact h2
    · intro x i x' i' hx hx' hi hi' h
      obtain ⟨r1, r2⟩ := process_bounds_rows G0 G1 hx hy
      obtain ⟨r1', r2'⟩ := process_bounds_rows G0 G1 hx' hy
      rw [r1, r2, e0] at hi
      rw [r1', r2', e0] at hi'
      exact axis_unique l0 hi hi' h
  · intro x hx
    constructor
    · intro g
      rw [← axis_cover hP1 l1 hpad1 g]
      constructor
      · rintro ⟨y, j, hy, h1, h2, h3⟩
        obtain ⟨r1, r2⟩ := process_bounds_cols G0 G1 hx hy
        rw [r1] at h1
        rw [r2, e1] at h2
        exact ⟨y, j, hy, h1, h2, h3⟩
      · rintro ⟨y, j, hy, h1, h2, h3⟩
        obtain ⟨r1, r2⟩ := process_bounds_cols G0 G1 hx hy
        refine ⟨y, j, hy, ?_, ?_, h3⟩
        · rw [r1]; exact h1
        · rw [r2, e1]; exact h2
    · intro y j y' j' hy hy' hj hj' h
      obtain ⟨r1, r2⟩ := process_bounds_cols G0 G1 hx hy
      obtain ⟨r1', r2'⟩ := process_bounds_cols G0 G1 hx hy'
      rw [r1, r2, e1] at hj
      rw [r1', r2', e1] at hj'
      exact axis_unique l1 hj hj' h

/-- C10 on the `5 × 5` grid over `2 × 2` processes (local size `3`, padding
`1`): the global row `3` is reached from the process column `y = 0`, and the
global column `3` from the process row `x = 1`. -/
theorem C10_iteration_bounds_cover_interior_witness :
    (padding 5 2 < local_size 5 2) ∧
      ((∃ x i, (0 ≤ x ∧ x < 2) ∧ (process_bounds 5 5 2 2 x 0).i_min ≤ i ∧
            i < (process_bounds 5 5 2 2 x 0).i_max ∧ (3 : Int) = x * local_size 5 2 + (i - 1)) ↔
          (1 : Int) ≤ 3 ∧ (3 : Int) ≤ 5 - 2) ∧
      ((∃ y j, (0 ≤ y ∧ y < 2) ∧ (process_bounds 5 5 2 2 1 y).j_min ≤ j ∧
            j < (process_bounds 5 5 2 2 1 y).j_max ∧ (3 : Int) = y * local_size 5 2 + (j - 1)) ↔
          (1 : Int) ≤ 3 ∧ (3 : Int) ≤ 5 - 2) :=
  ⟨by decide,
    ((C10_iteration_bounds_cover_interior 5 5 2 2 (by decide) (by decide) (by decide)
      (by decide) (by decide) (by decide) (by decide) (by decide)).1 0 (by decide)).1 3,
    ((C10_iteration_bounds_cover_interior 5 5 2 2 (by decide) (by decide) (by decide)
      (by decide) (by decide) (by decide) (by decide) (by decide)).2 1 (by decide)).1 3⟩

/-! ### Loops -/

theorem forRange_of_le {σ : Type} {lo hi : Int} (h : hi ≤ lo) (body : Int → σ → σ) (s : σ) :
    forRange lo hi body s = s := by
  unfold forRange
  rw [Int.toNat_eq_zero.2 (by omega)]
  rfl

/-- Invariant rule for `forRange`, by the number of iterations. -/
theorem forRange_inv_aux {σ : Type} (lo : Int) (body : Int → σ → σ) (P : Int → σ → Prop)
    (s : σ) (h0 : P lo s) (n : Nat)
    (hstep : ∀ k t, lo ≤ k → k < lo + n → P k t → P (k + 1) (body k t)) :
    P (lo + n) (((List.range n).map (fun k : Nat => lo + (k : Int))).foldl
      (fun acc k => body k acc) s) := by
  induction n with
  | zero => simpa using h0
  | succ n ih =>
    rw [List.range_succ, List.map_append, List.foldl_append]
    simp only [List.map_cons, List.map_nil, List.foldl_cons, List.foldl_nil]
    have h1 := ih (fun k t hk hk2 hP => hstep k t hk (by push_cast; omega) hP)
    have h2 := hstep _ _ (by omega) (by push_cast; omega) h1
    have e : lo + ((n + 1 : Nat) : Int) = lo + (n : Int) + 1 := by push_cast; ring
    rw [e]
    exact h2

/-- Invariant rule for `forRange`: an invariant that holds at `lo` and is
carried by every iteration holds at `hi` after the loop. -/
theorem forRange_inv {σ : Type} {lo hi : Int} (hle : lo ≤ hi) (body : Int → σ → σ)
    (P : Int → σ → Prop) (s : σ) (h0 : P lo s)
    (hstep : ∀ k t, lo ≤ k → k < hi → P k t → P (k + 1) (body k t)) :
    P hi (forRange lo hi body s) := by
  have e : lo + (((hi - lo).toNat : Nat) : Int) = hi := by
    rw [Int.toNat_of_nonneg (by omega)]; ring
  have := forRange_inv_aux lo body P s h0 (hi - lo).toNat
    (fun k t hk hk2 hP => hstep k t hk (by omega) hP)
  rw [e] at this
  exact this

/-! ### The kernel `Jacobi` -/

/-- One row of `Jacobi`: the inner loop at row `i`. -/
theorem Jacobi_row (t : Buffers) (i Y_min Y_max : Int) :
    (forRange Y_min Y_max (fun j s =>
      { s with
        u_current := setCell s.u_current i j
                      ((s.u_previous (i - 1) j + s.u_previous (i + 1) j + s.u_previous i (j - 1)
                        + s.u_previous i (j + 1)) / 4) }) t).u_previous = t.u_previous ∧
    ∀ a b, (forRange Y_min Y_max (fun j s =>
      { s with
        u_current := setCell s.u_current i j
                      ((s.u_previous (i - 1) j + s.u_previous (i + 1) j + s.u_previous i (j - 1)
                        + s.u_previous i (j + 1)) / 4) }) t).u_current a b =
      if a = i ∧ Y_min ≤ b ∧ b < Y_max then stencil_average t.u_previous a b
      else t.u_current a b := by
  by_cases hle : Y_min ≤ Y_max
  · refine forRange_inv hle _
      (fun j s => s.u_previous = t.u_previous ∧ ∀ a b, s.u_current a b =
        if a = i ∧ Y_min ≤ b ∧ b < j then stencil_average t.u_previous a b
        else t.u_current a b) t ⟨rfl, fun a b => ?_⟩ ?_
    · rw [if_neg (by omega)]
    · rintro j s hj1 hj2 ⟨hp, hc⟩
      refine ⟨hp, fun a b => ?_⟩
      simp only [setCell]
      by_cases hab : a = i ∧ b = j
      · obtain ⟨rfl, rfl⟩ := hab
        rw [if_pos ⟨rfl, rfl⟩, if_pos ⟨rfl, hj1, by omega⟩, hp]
        rfl
      · rw [if_neg hab, hc a b]
        by_cases h1 : a = i ∧ Y_min ≤ b ∧ b < j
        · rw [if_pos h1, if_pos ⟨h1.1, h1.2.1, by omega⟩]
        · rw [if_neg h1, if_neg (fun h => by
            apply h1
            refine ⟨h.1, h.2.1, ?_⟩
            have : b ≠ j := fun hb => hab ⟨h.1, hb⟩
            omega)]
  · rw [forRange_of_le (by omega)]
    refine ⟨rfl, fun a b => ?_⟩
    rw [if_neg (by omega)]

/-- Result of `Jacobi`: the previous buffer is left as it is, and the current
buffer holds the stencil average of the previous one inside the bounds and
its old value elsewhere. -/
theorem Jacobi_spec (s : Buffers) (X_min X_max Y_min Y_max : Int) :
    (Jacobi s X_min X_max Y_min Y_max).u_previous = s.u_previous ∧
    ∀ a b, (Jacobi s X_min X_max Y_min Y_max).u_current a b =
      if (X_min ≤ a ∧ a < X_max) ∧ Y_min ≤ b ∧ b < Y_max then stencil_average s.u_previous a b
      else s.u_current a b := by
  unfold Jacobi
  by_cases hle : X_min ≤ X_max
  · refine forRange_inv hle _
      (fun i t => t.u_previous = s.u_previous ∧ ∀ a b, t.u_current a b =
        if (X_min ≤ a ∧ a < i) ∧ Y_min ≤ b ∧ b < Y_max then stencil_average s.u_previous a b
        else s.u_current a b) s ⟨rfl, fun a b => ?_⟩ ?_
    · rw [if_neg (by omega)]
    · rintro i t hi1 hi2 ⟨hp, hc⟩
      obtain ⟨rp, rc⟩ := Jacobi_row t i Y_min Y_max
      refine ⟨rp.trans hp, fun a b => ?_⟩
      rw [rc a b, hp]
      by_cases h1 : a = i ∧ Y_min ≤ b ∧ b < Y_max
      · rw [if_pos h1, if_pos ⟨⟨by omega, by omega⟩, h1.2⟩]
      · rw [if_neg h1, hc a b]
        by_cases h2 : (X_min ≤ a ∧ a < i) ∧ Y_min ≤ b ∧ b < Y_max
        · rw [if_pos h2, if_pos ⟨⟨h2.1.1, by omega⟩, h2.2⟩]
        · rw [if_neg h2, if_neg (fun h => by
            by_cases ha : a = i
            · exact h1 ⟨ha, h.2⟩
            · exact h2 ⟨⟨h.1.1, by omega⟩, h.2⟩)]
  · rw [forRange_of_le (by omega)]
    refine ⟨rfl, fun a b => ?_⟩
    rw [if_neg (by omega)]

/-- C5. After `Jacobi(prev, cur, X_min, X_max, Y_min, Y_max)` every cell
`(i, j)` with `X_min ≤ i < X_max` and `Y_min ≤ j < Y_max` of `cur` holds
`(prev[i-1][j] + prev[i+1][j] + prev[i][j-1] + prev[i][j+1]) / 4` computed
from the buffer `prev` of the call, every other cell of `cur` is unchanged,
and `prev` is unchanged. -/
theorem C5_jacobi_kernel (s : Buffers) (X_min X_max Y_min Y_max : Int) :
    (∀ i j, X_min ≤ i ∧ i < X_max → Y_min ≤ j ∧ j < Y_max →
      (Jacobi s X_min X_max Y_min Y_max).u_current i j =
        (s.u_previous (i - 1) j + s.u_previous (i + 1) j + s.u_previous i (j - 1)
          + s.u_previous i (j + 1)) / 4) ∧
    (∀ i j, ¬ ((X_min ≤ i ∧ i < X_max) ∧ Y_min ≤ j ∧ j < Y_max) →
      (Jacobi s X_min X_max Y_min Y_max).u_current i j = s.u_current i j) ∧
    (Jacobi s X_min X_max Y_min Y_max).u_previous = s.u_previous := by
  obtain ⟨hp, hc⟩ := Jacobi_spec s X_min X_max Y_min Y_max
  refine ⟨fun i j hi hj => ?_, fun i j h => ?_, hp⟩
  · rw [hc i j, if_pos ⟨hi, hj⟩]; rfl
  · rw [hc i j, if_neg h]

/-- C5 at the `5 × 5` spike grid: the cell `(1, 2)` receives the average of
its four neighbours in the previous buffer. -/
theorem C5_jacobi_kernel_witness :
    (Jacobi (spike_start 2 2 1) 1 4 1 4).u_current 1 2 =
      ((spike_start 2 2 1).u_previous (1 - 1) 2 + (spike_start 2 2 1).u_previous (1 + 1) 2
        + (spike_start 2 2 1).u_previous 1 (2 - 1) + (spike_start 2 2 1).u_previous 1 (2 + 1)) / 4 :=
  (C5_jacobi_kernel (spike_start 2 2 1) 1 4 1 4).1 1 2 (by decide) (by decide)

/-! ### Repeated Jacobi updates of a spike -/

/-- One iteration of the main loop with `Jacobi`: the old current buffer
becomes the previous one, and the new current buffer holds its stencil
average inside the bounds and the old previous buffer elsewhere. -/
theorem jacobi_iteration_spec (X_min X_max Y_min Y_max : Int) (s : Buffers) :
    (jacobi_iteration X_min X_max Y_min Y_max s).u_previous = s.u_current ∧
    ∀ a b, (jacobi_iteration X_min X_max Y_min Y_max s).u_current a b =
      if (X_min ≤ a ∧ a < X_max) ∧ Y_min ≤ b ∧ b < Y_max then stencil_average s.u_current a b
      else s.u_previous a b :=
  Jacobi_spec { u_previous := s.u_current, u_current := s.u_previous } X_min X_max Y_min Y_max

/-- The stencil average of a grid bounded by `M` is bounded by `M`. -/
theorem stencil_average_bound {u : Grid} {M : ℚ} (h : ∀ a b, |u a b| ≤ M) (a b : Int) :
    |stencil_average u a b| ≤ M := by
  have h1 := abs_le.1 (h (a - 1) b)
  have h2 := abs_le.1 (h (a + 1) b)
  have h3 := abs_le.1 (h a (b - 1))
  have h4 := abs_le.1 (h a (b + 1))
  unfold stencil_average
  rw [abs_le]
  constructor <;> linarith

/-- At most one of the four neighbours of a cell is the spike. -/
theorem stencil_average_spike_bound (si sj : Int) (v : ℚ) (a b : Int) :
    |stencil_average (spike_grid si sj v) a b| ≤ |v| / 4 := by
  have h1 := abs_nonneg v
  have h2 := le_abs_self v
  have h3 := neg_abs_le v
  unfold stencil_average spike_grid
  rw [abs_le]
  split_ifs <;> first | omega | (constructor <;> linarith)

/-- None of the four neighbours of the spike is the spike. -/
theorem stencil_average_spike_self (si sj : Int) (v : ℚ) :
    stencil_average (spike_grid si sj v) si sj = 0 := by
  unfold stencil_average spike_grid
  rw [if_neg (by omega), if_neg (by omega), if_neg (by omega), if_neg (by omega)]
  norm_num

/-- After at least one update of the spike grid, both buffers vanish outside
the bounds and the current buffer is bounded by a quarter of the spike. -/
theorem jacobi_run_spike_bound (X_min X_max Y_min Y_max si sj : Int) (v : ℚ)
    (hin : (X_min ≤ si ∧ si < X_max) ∧ Y_min ≤ sj ∧ sj < Y_max) (k : Nat) :
    (∀ a b, ¬ ((X_min ≤ a ∧ a < X_max) ∧ Y_min ≤ b ∧ b < Y_max) →
      (jacobi_run X_min X_max Y_min Y_max (k + 1) (spike_start si sj v)).u_previous a b = 0 ∧
      (jacobi_run X_min X_max Y_min Y_max (k + 1) (spike_start si sj v)).u_current a b = 0) ∧
    (∀ a b,
      |(jacobi_run X_min X_max Y_min Y_max (k + 1) (spike_start si sj v)).u_current a b|
        ≤ |v| / 4) := by
  have hv : (0 : ℚ) ≤ |v| / 4 := by positivity
  have hout : ∀ a b, ¬ ((X_min ≤ a ∧ a < X_max) ∧ Y_min ≤ b ∧ b < Y_max) →
      spike_grid si sj v a b = 0 := by
    intro a b h
    unfold spike_grid
    rw [if_neg]
    rintro ⟨rfl, rfl⟩
    exact h hin
  induction k with
  | zero =>
    obtain ⟨hp, hc⟩ := jacobi_iteration_spec X_min X_max Y_min Y_max (spike_start si sj v)
    have e : jacobi_run X_min X_max Y_min Y_max (0 + 1) (spike_start si sj v) =
        jacobi_iteration X_min X_max Y_min Y_max (spike_start si sj v) := rfl
    rw [e]
    refine ⟨fun a b h => ⟨?_, ?_⟩, fun a b => ?_⟩
    · rw [hp]; exact hout a b h
    · rw [hc a b, if_neg h]; exact hout a b h
    · rw [hc a b]
      split_ifs with h
      · exact stencil_average_spike_bound si sj v a b
      · have : (spike_start si sj v).u_previous a b = 0 := hout a b h
        rw [this, abs_zero]; exact hv
  | succ k ih =>
    obtain ⟨ih1, ih2⟩ := ih
    obtain ⟨hp, hc⟩ := jacobi_iteration_spec X_min X_max Y_min Y_max
      (jacobi_run X_min X_max Y_min Y_max (k + 1) (spike_start si sj v))
    have e : jacobi_run X_min X_max Y_min Y_max (k + 1 + 1) (spike_start si sj v) =
        jacobi_iteration X_min X_max Y_min Y_max
          (jacobi_run X_min X_max Y_min Y_max (k + 1) (spike_start si sj v)) := rfl
    rw [e]
    refine ⟨fun a b h => ⟨?_, ?_⟩, fun a b => ?_⟩
    · rw [hp]; exact (ih1 a b h).2
    · rw [hc a b, if_neg h]; exact (ih1 a b h).1
    · rw [hc a b]
      split_ifs with h
      · exact stencil_average_bound ih2 a b
      · rw [(ih1 a b h).1, abs_zero]; exact hv

/-- C9 (counterexample). On the `5 × 5` grid with the spike `1` at the centre
`(2, 2)` and the bounds `1 ≤ i, j < 4`, the spike cell holds `0` after one
update and `1 / 4` after two, so its deviation from `0` grows from the first
update to the second. -/
theorem C9_spike_deviation_not_monotone :
    (jacobi_run 1 4 1 4 1 (spike_start 2 2 1)).u_current 2 2 = 0 ∧
    (jacobi_run 1 4 1 4 2 (spike_start 2 2 1)).u_current 2 2 = 1 / 4 ∧
    ¬ (|(jacobi_run 1 4 1 4 2 (spike_start 2 2 1)).u_current 2 2 - 0|
        < |(jacobi_run 1 4 1 4 1 (spike_start 2 2 1)).u_current 2 2 - 0|) := by
  have h1 : (jacobi_run 1 4 1 4 1 (spike_start 2 2 1)).u_current 2 2 = 0 := by
    simp [jacobi_run, (jacobi_iteration_spec 1 4 1 4 _).2, stencil_average, spike_start,
      spike_grid]
  have h2 : (jacobi_run 1 4 1 4 2 (spike_start 2 2 1)).u_current 2 2 = 1 / 4 := by
    simp [jacobi_run, (jacobi_iteration_spec 1 4 1 4 _).2, stencil_average, spike_start,
      spike_grid]
    norm_num
  refine ⟨h1, h2, ?_⟩
  rw [h1, h2]
  norm_num

/-- C9 (amended). For a grid that is zero except for a spike `v ≠ 0` at a cell
inside the bounds, cells outside the bounds never being written, the spike
cell holds `0` after the first Jacobi update, and after every `k ≥ 1` updates
its absolute deviation from `0` is at most `|v| / 4`, hence strictly smaller
than the initial deviation `|v|`. -/
theorem C9_spike_deviation_below_initial (X_min X_max Y_min Y_max si sj : Int) (v : ℚ)
    (hin : (X_min ≤ si ∧ si < X_max) ∧ Y_min ≤ sj ∧ sj < Y_max) (hv : v ≠ 0) :
    (jacobi_run X_min X_max Y_min Y_max 1 (spike_start si sj v)).u_current si sj = 0 ∧
    ∀ k : Nat, 1 ≤ k →
      |(jacobi_run X_min X_max Y_min Y_max k (spike_start si sj v)).u_current si sj - 0|
          ≤ |v| / 4 ∧
      |(jacobi_run X_min X_max Y_min Y_max k (spike_start si sj v)).u_current si sj - 0|
          < |(jacobi_run X_min X_max Y_min Y_max 0 (spike_start si sj v)).u_current si sj - 0| := by
  have hpos : 0 < |v| := abs_pos.2 hv
  constructor
  · have e : jacobi_run X_min X_max Y_min Y_max 1 (spike_start si sj v) =
        jacobi_iteration X_min X_max Y_min Y_max (spike_start si sj v) := rfl
    rw [e, (jacobi_iteration_spec X_min X_max Y_min Y_max _).2 si sj, if_pos hin]
    exact stencil_average_spike_self si sj v
  · intro k hk
    obtain ⟨k, rfl⟩ : ∃ m, k = m + 1 := ⟨k - 1, by omega⟩
    have hb := (jacobi_run_spike_bound X_min X_max Y_min Y_max si sj v hin k).2 si sj
    have h0 : (jacobi_run X_min X_max Y_min Y_max 0 (spike_start si sj v)).u_current si sj
        = v := by
      simp [jacobi_run, spike_start, spike_grid]
    rw [h0, sub_zero, sub_zero]
    exact ⟨hb, by linarith⟩

/-- C9 (amended) on the `5 × 5` grid with the spike `1` at the centre. -/
theorem C9_spike_deviation_below_initial_witness :
    (jacobi_run 1 4 1 4 1 (spike_start 2 2 1)).u_current 2 2 = 0 ∧
      |(jacobi_run 1 4 1 4 2 (spike_start 2 2 1)).u_current 2 2 - 0| ≤ |(1 : ℚ)| / 4 ∧
      |(jacobi_run 1 4 1 4 2 (spike_start 2 2 1)).u_current 2 2 - 0|
          < |(jacobi_run 1 4 1 4 0 (spike_start 2 2 1)).u_current 2 2 - 0| :=
  ⟨(C9_spike_deviation_below_initial 1 4 1 4 2 2 1 (by decide) (by norm_num)).1,
    (C9_spike_deviation_below_initial 1 4 1 4 2 2 1 (by decide) (by norm_num)).2 2 (by decide)⟩

/-! ### The in-line sweep of `main` against `GaussSeidel` -/

theorem setCell_of_ne_row {u : Grid} {i j a b : Int} {v : ℚ} (h : a ≠ i) :
    setCell u i j v a b = u a b := by
  unfold setCell
  rw [if_neg (fun hc => h hc.1)]

/-- A received row changes no cell of another row. -/
theorem recv_row_of_ne_row (u : Grid) (i j local1 : Int) (msg : Int → ℚ) {a : Int} (b : Int)
    (h : a ≠ i) : recv_row u i j local1 msg a b = u a b := by
  unfold recv_row
  by_cases hle : (0 : Int) ≤ local1
  · refine forRange_inv hle _ (fun _ t => t a b = u a b) u rfl ?_
    intro k t _ _ ht
    rw [setCell_of_ne_row h]
    exact ht
  · rw [forRange_of_le (by omega)]

/-- The first row is skipped: on a process with a north neighbour the in-line
sweep leaves every cell of row `i_min` of `u_current` as it was. -/
theorem pipelined_sweep_first_row (s : Buffers) (i_min i_max j_min j_max north west local1 : Int)
    (omega : ℚ) (msg_north msg_west : Int → ℚ) (hnorth : north ≠ -1) (b : Int) :
    (pipelined_sweep s i_min i_max j_min j_max north west local1 omega msg_north
      msg_west).u_current i_min b = s.u_current i_min b := by
  unfold pipelined_sweep
  by_cases hle : i_min ≤ i_max
  · refine forRange_inv hle _ (fun _ t => t.u_current i_min b = s.u_current i_min b) s rfl ?_
    intro i t hi1 hi2 ht
    unfold forRangeBreak
    by_cases hj : j_min ≤ j_max
    · refine (forRange_inv hj _ (fun j (acc : Buffers × Bool) =>
        acc.1.u_current i_min b = s.u_current i_min b ∧
          (i = i_min → j_min < j → acc.2 = true)) (t, false) ⟨ht, fun _ h => by omega⟩ ?_).1
      rintro j ⟨t1, br⟩ hj1 hj2 ⟨h1, h2⟩
      cases br with
      | true => exact ⟨h1, fun _ _ => rfl⟩
      | false =>
        simp only [Bool.false_eq_true, if_false]
        by_cases hc : i = i_min ∧ j = j_min ∧ north ≠ -1
        · rw [if_pos hc]
          refine ⟨?_, fun _ _ => rfl⟩
          simp only
          rw [recv_row_of_ne_row _ _ _ _ _ _ (by omega)]
          exact h1
        · rw [if_neg hc]
          have hi : i ≠ i_min := by
            intro hi
            have := h2 hi
            by_cases hjj : j = j_min
            · exact hc ⟨hi, hjj, hnorth⟩
            · have := this (by omega)
              cases this
          refine ⟨?_, fun h => absurd h hi⟩
          simp only
          rw [setCell_of_ne_row (Ne.symm hi)]
          split_ifs
          · simp only
            rw [setCell_of_ne_row (Ne.symm hi)]
            exact h1
          · exact h1
    · rw [forRange_of_le (by omega)]
      exact ht
  · rw [forRange_of_le (by omega)]

/-- A loop whose body never leaves it is the plain loop. -/
theorem forRangeBreak_of_no_break {σ : Type} (lo hi : Int) (body : Int → σ → σ × Bool)
    (h : ∀ k t, (body k t).2 = false) (s : σ) :
    forRangeBreak lo hi body s = forRange lo hi (fun k t => (body k t).1) s := by
  unfold forRangeBreak forRange
  generalize (List.range (hi - lo).toNat).map (fun k : Nat => lo + (k : Int)) = l
  induction l generalizing s with
  | nil => rfl
  | cons k l ih =>
    simp only [List.foldl_cons, Bool.false_eq_true, if_false]
    have e : body k s = ((body k s).1, false) := by
      rw [← h k s]
    rw [e]
    exact ih (body k s).1

/-- On a process without a north and without a west neighbour the in-line
sweep is the sweep of `GaussSeidel`. -/
theorem pipelined_sweep_eq_GaussSeidel (s : Buffers) (i_min i_max j_min j_max local1 : Int)
    (omega : ℚ) (msg_north msg_west : Int → ℚ) :
    pipelined_sweep s i_min i_max j_min j_max (-1) (-1) local1 omega msg_north msg_west =
      GaussSeidel s i_min i_max j_min j_max omega := by
  unfold pipelined_sweep GaussSeidel
  congr 1
  funext i t
  rw [forRangeBreak_of_no_break]
  · congr 1
    funext j t'
    simp
  · intro k t'
    simp

/-- C7 (the code at the failing input). The process at `(1, 0)` of the `2 × 1`
process grid on the `4 × 4` global grid has the north neighbour `0` and the
bounds `1 ≤ i < 2`, `2 ≤ j < 4`.  With `4` in every cell of `u_previous`, `0`
in every cell of `u_current`, `omega = 1` and zero messages, `GaussSeidel`
stores `2` in the cell `(1, 2)` of the first row, while the in-line sweep
leaves the cell at `0`: it receives the row and leaves the inner loop. -/
theorem C7_pipelined_sweep_skips_first_row :
    (neighbours 2 1 1 0).north = 0 ∧ (neighbours 2 1 1 0).west = -1 ∧
    process_bounds 4 4 2 1 1 0 = { i_min := 1, i_max := 2, j_min := 2, j_max := 4 } ∧
    (GaussSeidel { u_previous := fun _ _ => 4, u_current := fun _ _ => 0 }
      1 2 2 4 1).u_current 1 2 = 2 ∧
    (pipelined_sweep { u_previous := fun _ _ => 4, u_current := fun _ _ => 0 }
      1 2 2 4 0 (-1) 4 1 (fun _ => 0) (fun _ => 0)).u_current 1 2 = 0 := by
  refine ⟨by decide, by decide, by decide, ?_, ?_⟩
  · simp [GaussSeidel, forRange, List.range_succ, setCell]
    norm_num
  · exact pipelined_sweep_first_row _ 1 2 2 4 0 (-1) 4 1 _ _ (by decide) 2

/-! ### Halo exchange: requests -/

/-- A process that does not have neighbours on both sides of an axis has no
operation pending after the waits. -/
theorem halo_exchange_complete (north south east west : Int)
    (hns : north = -1 ∨ south = -1) (hew : east = -1 ∨ west = -1) :
    (halo_exchange north south east west Requests.init).pending = [] := by
  by_cases hn : north = -1 <;> by_cases hs : south = -1 <;> by_cases he : east = -1 <;>
    by_cases hw : west = -1 <;>
    first
    | (exfalso; omega)
    | simp [halo_exchange, hn, hs, he, hw, MPI_Wait, MPI_Ipost, Requests.init, Function.update]

/-- A process with both a north and a south neighbour still has its send to
the north and its receive from the north pending after the waits. -/
theorem halo_exchange_north_pending (north south east west : Int)
    (hn : north ≠ -1) (hs : south ≠ -1) :
    HaloOp.send_north ∈ (halo_exchange north south east west Requests.init).pending ∧
    HaloOp.recv_north ∈ (halo_exchange north south east west Requests.init).pending := by
  by_cases he : east = -1 <;> by_cases hw : west = -1 <;>
    simp [halo_exchange, hn, hs, he, hw, MPI_Wait, MPI_Ipost, Requests.init, Function.update]

/-- C6 (the code at the failing input). The process at `(1, 0)` of the `3 × 1`
process grid has the north neighbour `0` and the south neighbour `2`; after
both waits of its north/south exchange the send to the north and the receive
from the north are still pending, their requests having been overwritten by
the operations towards the south. -/
theorem C6_north_operations_left_pending :
    (neighbours 3 1 1 0).north = 0 ∧ (neighbours 3 1 1 0).south = 2 ∧
    (halo_exchange (neighbours 3 1 1 0).north (neighbours 3 1 1 0).south
      (neighbours 3 1 1 0).east (neighbours 3 1 1 0).west Requests.init).pending
      = [HaloOp.send_north, HaloOp.recv_north] := by
  decide

/-! ### Convergence reduction -/

theorem land_zero_right (x : Int) : Int.land x 0 = 0 := by
  have h : ∀ n : Nat, Nat.ldiff 0 n = 0 := fun n =>
    Nat.eq_of_testBit_eq (fun k => by simp [Nat.testBit_ldiff])
  cases x <;> simp [Int.land, h]

theorem land_zero_left (x : Int) : Int.land 0 x = 0 := by
  have h : ∀ n : Nat, Nat.ldiff 0 n = 0 := fun n =>
    Nat.eq_of_testBit_eq (fun k => by simp [Nat.testBit_ldiff])
  cases x <;> simp [Int.land, h]

theorem foldl_land_zero (cs : List Int) : cs.foldl Int.land 0 = 0 := by
  induction cs with
  | nil => rfl
  | cons c cs ih => rw [List.foldl_cons, land_zero_left]; exact ih

/-- A zero flag makes the folded bitwise and zero. -/
theorem foldl_land_of_mem_zero (cs : List Int) (c : Int) (h : c = 0 ∨ (0 : Int) ∈ cs) :
    cs.foldl Int.land c = 0 := by
  induction cs generalizing c with
  | nil =>
    rcases h with h | h
    · simpa using h
    · simp at h
  | cons d ds ih =>
    rw [List.foldl_cons]
    apply ih
    rcases h with h | h
    · left; rw [h]; exact land_zero_left d
    · rcases List.mem_cons.1 h with h | h
      · left; rw [← h]; exact land_zero_right c
      · right; exact h

/-- Flags that are all `1` fold to `1`. -/
theorem foldl_land_of_all_one (cs : List Int) (h : ∀ c ∈ cs, c = 1) :
    cs.foldl Int.land 1 = 1 := by
  induction cs with
  | nil => rfl
  | cons d ds ih =>
    rw [List.foldl_cons, h d (List.mem_cons_self _ _)]
    have : Int.land 1 1 = 1 := by decide
    rw [this]
    exact ih (fun c hc => h c (List.mem_cons_of_mem _ hc))

/-- The reduction on arbitrary `int` flags: a nonzero global flag implies
that every local flag is nonzero, a zero local flag leaves the loop test to
`t < T` alone, and on flags that are `0` or `1` the global flag is nonzero
exactly when every local flag is. -/
theorem allreduce_band_spec (converged : List Int) :
    (MPI_Allreduce_BAND converged ≠ 0 → ∀ c ∈ converged, c ≠ 0) ∧
    ((∃ c ∈ converged, c = 0) →
      ∀ t T, loop_test t T (MPI_Allreduce_BAND converged) = decide (t < T)) ∧
    ((∀ c ∈ converged, c = 0 ∨ c = 1) →
      (MPI_Allreduce_BAND converged ≠ 0 ↔ ∀ c ∈ converged, c ≠ 0)) := by
  have key : (∃ c ∈ converged, c = 0) → MPI_Allreduce_BAND converged = 0 := by
    rintro ⟨c, hc, rfl⟩
    cases converged with
    | nil => simp at hc
    | cons d ds =>
      have e : MPI_Allreduce_BAND (d :: ds) = ds.foldl Int.land d := rfl
      rw [e]
      apply foldl_land_of_mem_zero
      rcases List.mem_cons.1 hc with h | h
      · left; exact h.symm
      · right; exact h
  refine ⟨fun h c hc h0 => h (key ⟨c, hc, h0⟩), fun h t T => ?_, fun h01 => ?_⟩
  · simp [loop_test, key h]
  · refine ⟨fun h c hc h0 => h (key ⟨c, hc, h0⟩), fun hall => ?_⟩
    cases converged with
    | nil => simp [MPI_Allreduce_BAND]
    | cons d ds =>
      have hd : d = 1 := by
        rcases h01 d (List.mem_cons_self _ _) with h | h
        · exact absurd h (hall d (List.mem_cons_self _ _))
        · exact h
      have hds : ∀ c ∈ ds, c = 1 := by
        intro c hc
        rcases h01 c (List.mem_cons_of_mem _ hc) with h | h
        · exact absurd h (hall c (List.mem_cons_of_mem _ hc))
        · exact h
      have e : MPI_Allreduce_BAND (d :: ds) = ds.foldl Int.land d := rfl
      rw [e, hd, foldl_land_of_all_one ds hds]
      decide

/-- C8. For every number of processes and every vector of local convergence
flags (each `0` or `1`), the global flag produced by the reduction with
`MPI_BAND` is nonzero if and only if every local flag is nonzero; hence, while
some local flag is zero, the loop test `t < T && !global_converged` is decided
by `t < T` alone and convergence does not stop the loop. -/
theorem C8_convergence_reduction (converged : List Int)
    (hflag : ∀ c ∈ converged, is_flag c) :
    (MPI_Allreduce_BAND converged ≠ 0 ↔ ∀ c ∈ converged, c ≠ 0) ∧
    ((∃ c ∈ converged, c = 0) →
      ∀ t T, loop_test t T (MPI_Allreduce_BAND converged) = decide (t < T)) :=
  ⟨(allreduce_band_spec converged).2.2 hflag, (allreduce_band_spec converged).2.1⟩

/-- C8 on three processes with the flags `1`, `0`, `1`. -/
theorem C8_convergence_reduction_witness :
    (MPI_Allreduce_BAND [1, 0, 1] ≠ 0 ↔ ∀ c ∈ [(1 : Int), 0, 1], c ≠ 0) ∧
    ((∃ c ∈ [(1 : Int), 0, 1], c = 0) →
      ∀ t T, loop_test t T (MPI_Allreduce_BAND [1, 0, 1]) = decide (t < T)) :=
  C8_convergence_reduction [1, 0, 1] (by simp [is_flag])

/-! ### Distribution transport -/

theorem zip_flatMap {ι β γ : Type} (l : List ι) (f : ι → List β) (g : ι → List γ)
    (h : ∀ x, (f x).length = (g x).length) :
    (l.flatMap f).zip (l.flatMap g) = l.flatMap (fun x => (f x).zip (g x)) := by
  induction l with
  | nil => rfl
  | cons x xs ih =>
    simp only [List.flatMap_cons]
    rw [List.zip_append (h x), ih]

/-- A sequence of stores leaves an address that none of them names as it was. -/
theorem foldl_update_of_not_mem (ws : List (Int × ℚ)) (buf : Memory) (a : Int)
    (h : ∀ w ∈ ws, w.1 ≠ a) :
    ws.foldl (fun m w => Function.update m w.1 w.2) buf a = buf a := by
  induction ws generalizing buf with
  | nil => rfl
  | cons w ws ih =>
    rw [List.foldl_cons, ih _ (fun w' hw' => h w' (List.mem_cons_of_mem _ hw'))]
    exact Function.update_noteq (Ne.symm (h w (List.mem_cons_self _ _))) _ _

/-- A sequence of stores, all of which store `v` when they name the address
`a`, and one of which names it, leaves `v` at `a`. -/
theorem foldl_update_of_mem (ws : List (Int × ℚ)) (buf : Memory) (a : Int) (v : ℚ)
    (hex : ∃ w ∈ ws, w.1 = a) (hall : ∀ w ∈ ws, w.1 = a → w.2 = v) :
    ws.foldl (fun m w => Function.update m w.1 w.2) buf a = v := by
  induction ws generalizing buf with
  | nil => obtain ⟨w, hw, -⟩ := hex; simp at hw
  | cons w ws ih =>
    rw [List.foldl_cons]
    by_cases h : ∃ w' ∈ ws, w'.1 = a
    · exact ih _ h (fun w' hw' => hall w' (List.mem_cons_of_mem _ hw'))
    · rw [foldl_update_of_not_mem ws _ a (fun w' hw' he => h ⟨w', hw', he⟩)]
      obtain ⟨w0, hw0, he0⟩ := hex
      rcases List.mem_cons.1 hw0 with h1 | h1
      · subst h1
        rw [← he0, Function.update_same]
        exact hall w0 (List.mem_cons_self _ _) he0
      · exact absurd ⟨w0, h1, he0⟩ h

/-- One item of a datatype has the displacements of its type map. -/
theorem displacements_one (t : Datatype) : displacements 1 t = t.typemap := by
  unfold displacements
  have : (1 : Int).toNat = 1 := rfl
  rw [this]
  simp [List.range_succ]

/-- The stores of a block transfer: one block of `n` rows of `b` doubles is
read with row stride `sS` at `sA` and stored with row stride `sD` at `dA`. -/
theorem unpack_pack_vector (dst src : Memory) (dA sA n b sD sS : Int) :
    unpack dst dA 1 (MPI_Type_create_resized (MPI_Type_vector n b sD) 0 1)
        (pack src sA 1 (MPI_Type_create_resized (MPI_Type_vector n b sS) 0 1)) =
      ((List.range n.toNat).flatMap (fun r : Nat =>
          (List.range b.toNat).map (fun c : Nat =>
            (dA + ((r : Int) * sD + (c : Int)), src (sA + ((r : Int) * sS + (c : Int))))))).foldl
        (fun m w => Function.update m w.1 w.2) dst := by
  unfold unpack pack
  rw [displacements_one, displacements_one]
  simp only [MPI_Type_create_resized, MPI_Type_vector, List.map_flatMap, List.map_map]
  rw [zip_flatMap _ _ _ (fun x => by simp)]
  congr 1
  congr 1
  funext r
  rw [List.zip_map']
  rfl

/-- A block transfer stores the source block in the destination block and
leaves every other address of the destination as it was. -/
theorem block_transfer (dst src : Memory) (dA sA n b sD sS : Int) (hb : b ≤ sD) :
    (∀ r c, 0 ≤ r ∧ r < n → 0 ≤ c ∧ c < b →
      unpack dst dA 1 (MPI_Type_create_resized (MPI_Type_vector n b sD) 0 1)
        (pack src sA 1 (MPI_Type_create_resized (MPI_Type_vector n b sS) 0 1))
        (dA + (r * sD + c)) = src (sA + (r * sS + c))) ∧
    (∀ a, (∀ r c, 0 ≤ r ∧ r < n → 0 ≤ c ∧ c < b → a ≠ dA + (r * sD + c)) →
      unpack dst dA 1 (MPI_Type_create_resized (MPI_Type_vector n b sD) 0 1)
        (pack src sA 1 (MPI_Type_create_resized (MPI_Type_vector n b sS) 0 1)) a = dst a) := by
  rw [unpack_pack_vector]
  constructor
  · intro r c hr hc
    apply foldl_update_of_mem
    · refine ⟨(dA + (r * sD + c), src (sA + (r * sS + c))), ?_, rfl⟩
      rw [List.mem_flatMap]
      refine ⟨r.toNat, List.mem_range.2 (by omega), ?_⟩
      rw [List.mem_map]
      refine ⟨c.toNat, List.mem_range.2 (by omega), ?_⟩
      rw [Int.toNat_of_nonneg hr.1, Int.toNat_of_nonneg hc.1]
    · intro w hw he
      rw [List.mem_flatMap] at hw
      obtain ⟨r', hr', hw⟩ := hw
      rw [List.mem_map] at hw
      obtain ⟨c', hc', rfl⟩ := hw
      rw [List.mem_range] at hr' hc'
      simp only at he ⊢
      have := @cart_rank_inj sD (r' : Int) (c' : Int) r c (by omega) (by omega) (by omega)
      rw [this.1, this.2]
  · intro a ha
    apply foldl_update_of_not_mem
    intro w hw he
    rw [List.mem_flatMap] at hw
    obtain ⟨r', hr', hw⟩ := hw
    rw [List.mem_map] at hw
    obtain ⟨c', hc', rfl⟩ := hw
    rw [List.mem_range] at hr' hc'
    exact ha r' c' (by omega) (by omega) he.symm

/-- One row of the loops that fill the scatter arrays. -/
theorem scatter_arrays_row (P1 L0 L1 i : Int) (hP1 : 0 ≤ P1) (a : ScatterArrays) :
    (∀ j, 0 ≤ j ∧ j < P1 →
      (forRange 0 P1 (fun j a =>
        ({ scattercounts := Function.update a.scattercounts (i * P1 + j) 1
           scatteroffset := Function.update a.scatteroffset (i * P1 + j)
                              (scatteroffset_value L0 L1 P1 i j) } : ScatterArrays)) a).scattercounts
          (i * P1 + j) = 1 ∧
      (forRange 0 P1 (fun j a =>
        ({ scattercounts := Function.update a.scattercounts (i * P1 + j) 1
           scatteroffset := Function.update a.scatteroffset (i * P1 + j)
                              (scatteroffset_value L0 L1 P1 i j) } : ScatterArrays)) a).scatteroffset
          (i * P1 + j) = scatteroffset_value L0 L1 P1 i j) ∧
    (∀ k, (∀ j, 0 ≤ j ∧ j < P1 → k ≠ i * P1 + j) →
      (forRange 0 P1 (fun j a =>
        ({ scattercounts := Function.update a.scattercounts (i * P1 + j) 1
           scatteroffset := Function.update a.scatteroffset (i * P1 + j)
                              (scatteroffset_value L0 L1 P1 i j) } : ScatterArrays)) a).scattercounts k
          = a.scattercounts k ∧
      (forRange 0 P1 (fun j a =>
        ({ scattercounts := Function.update a.scattercounts (i * P1 + j) 1
           scatteroffset := Function.update a.scatteroffset (i * P1 + j)
                              (scatteroffset_value L0 L1 P1 i j) } : ScatterArrays)) a).scatteroffset k
          = a.scatteroffset k) := by
  have key := forRange_inv hP1 (fun j a =>
      ({ scattercounts := Function.update a.scattercounts (i * P1 + j) 1
         scatteroffset := Function.update a.scatteroffset (i * P1 + j)
                            (scatteroffset_value L0 L1 P1 i j) } : ScatterArrays))
    (fun j t =>
      (∀ j', 0 ≤ j' ∧ j' < j → t.scattercounts (i * P1 + j') = 1 ∧
        t.scatteroffset (i * P1 + j') = scatteroffset_value L0 L1 P1 i j') ∧
      (∀ k, (∀ j', 0 ≤ j' ∧ j' < j → k ≠ i * P1 + j') →
        t.scattercounts k = a.scattercounts k ∧ t.scatteroffset k = a.scatteroffset k)) a
    ⟨fun j' hj' => by omega, fun k _ => ⟨rfl, rfl⟩⟩
    (by
      rintro j t hj1 hj2 ⟨h1, h2⟩
      constructor
      · intro j' hj'
        by_cases e : j' = j
        · subst e
          simp only [Function.update_same, and_self]
        · have ne : i * P1 + j' ≠ i * P1 + j := by omega
          simp only [Function.update_noteq ne]
          exact h1 j' ⟨hj'.1, by omega⟩
      · intro k hk
        have ne : k ≠ i * P1 + j := hk j ⟨hj1, by omega⟩
        simp only [Function.update_noteq ne]
        exact h2 k (fun j' hj' => hk j' ⟨hj'.1, by omega⟩))
  exact key

/-- After the loops, `scattercounts` is `1` and `scatteroffset` is
`local[0] * local[1] * grid[1] * i + local[1] * j` at the rank `i * grid[1] + j`
of every process coordinate `(i, j)`. -/
theorem scatter_arrays_spec (P0 P1 L0 L1 : Int) (hP0 : 0 ≤ P0) (hP1 : 0 ≤ P1)
    (a : ScatterArrays) (i j : Int) (hi : 0 ≤ i ∧ i < P0) (hj : 0 ≤ j ∧ j < P1) :
    (scatter_arrays P0 P1 L0 L1 a).scattercounts (i * P1 + j) = 1 ∧
    (scatter_arrays P0 P1 L0 L1 a).scatteroffset (i * P1 + j) = scatteroffset_value L0 L1 P1 i j := by
  unfold scatter_arrays
  have key := forRange_inv hP0 (fun i a =>
      forRange 0 P1 (fun j a =>
        ({ scattercounts := Function.update a.scattercounts (i * P1 + j) 1
           scatteroffset := Function.update a.scatteroffset (i * P1 + j)
                              (scatteroffset_value L0 L1 P1 i j) } : ScatterArrays)) a)
    (fun i t => ∀ i' j', 0 ≤ i' ∧ i' < i → 0 ≤ j' ∧ j' < P1 →
      t.scattercounts (i' * P1 + j') = 1 ∧
      t.scatteroffset (i' * P1 + j') = scatteroffset_value L0 L1 P1 i' j') a
    (fun i' j' hi' _ => by omega)
    (by
      intro i t hi1 hi2 ih i' j' hi' hj'
      obtain ⟨r1, r2⟩ := scatter_arrays_row P1 L0 L1 i hP1 t
      by_cases e : i' = i
      · subst e
        exact r1 j' hj'
      · have ne : ∀ j2, 0 ≤ j2 ∧ j2 < P1 → i' * P1 + j' ≠ i * P1 + j2 := by
          intro j2 hj2 hc
          exact e (cart_rank_inj hj' hj2 hc).1
        obtain ⟨q1, q2⟩ := r2 _ ne
        rw [q1, q2]
        exact ih i' j' ⟨hi'.1, by omega⟩ hj')
  exact key i j hi hj

/-- The rank of a valid process coordinate is a valid rank. -/
theorem cart_rank_lt {P0 P1 i j : Int} (hi : 0 ≤ i ∧ i < P0) (hj : 0 ≤ j ∧ j < P1) :
    0 ≤ i * P1 + j ∧ i * P1 + j < P0 * P1 := by
  have h1 := mul_nonneg hi.1 (show 0 ≤ P1 by omega)
  have h2 := mul_le_mul_of_nonneg_right (show i + 1 ≤ P0 by omega) (show 0 ≤ P1 by omega)
  have h3 := add_mul i 1 P1
  constructor <;> omega

/-- Every valid rank is the rank of a valid process coordinate. -/
theorem rank_coords {P0 P1 k : Int} (hP1 : 0 < P1) (hk : 0 ≤ k ∧ k < P0 * P1) :
    ∃ i j, (0 ≤ i ∧ i < P0) ∧ (0 ≤ j ∧ j < P1) ∧ k = i * P1 + j := by
  refine ⟨k / P1, k % P1, ⟨Int.ediv_nonneg hk.1 (by omega), ?_⟩,
    ⟨Int.emod_nonneg _ (by omega), Int.emod_lt_of_pos _ hP1⟩, ?_⟩
  · exact Int.ediv_lt_of_lt_mul hP1 hk.2
  · have := Int.ediv_add_emod k P1
    have := mul_comm P1 (k / P1)
    omega

/-- Two positive factors of a product in the range of `int` are in range. -/
theorem fits_of_mul_fits {a b : Int} (ha : 1 ≤ a) (hb : 1 ≤ b) (h : a * b ≤ INT_MAX) :
    a ≤ INT_MAX ∧ b ≤ INT_MAX := by
  have h1 := mul_le_mul_of_nonneg_left hb (show 0 ≤ a by omega)
  have h2 := mul_le_mul_of_nonneg_right ha (show 0 ≤ b by omega)
  rw [mul_one] at h1
  rw [one_mul] at h2
  constructor <;> omega

/-- When the padded grid has at most `INT_MAX` cells, the stored offset of
every process coordinate is the exact one. -/
theorem scatteroffset_value_eq {L0 L1 P0 P1 i j : Int} (hL0 : 1 ≤ L0) (hL1 : 0 ≤ L1)
    (hi : 0 ≤ i ∧ i < P0) (hj : 0 ≤ j ∧ j < P1) (hfit : L0 * P0 * (L1 * P1) ≤ INT_MAX) :
    scatteroffset_value L0 L1 P1 i j = L0 * L1 * P1 * i + L1 * j := by
  have hP1 : 0 ≤ P1 := by omega
  have hB : 0 ≤ L1 * P1 := mul_nonneg hL1 hP1
  have hA : 0 ≤ L0 * L1 * P1 := by
    have := mul_nonneg (show 0 ≤ L0 by omega) hB
    rw [← mul_assoc] at this
    exact this
  have h1 : L0 * L1 * P1 * i ≤ L0 * L1 * P1 * (P0 - 1) :=
    mul_le_mul_of_nonneg_left (by omega) hA
  have h2 : L1 * j ≤ L1 * (P1 - 1) := mul_le_mul_of_nonneg_left (by omega) hL1
  have h3 : 0 ≤ L0 * L1 * P1 * i := mul_nonneg hA hi.1
  have h4 : 0 ≤ L1 * j := mul_nonneg hL1 hj.1
  have h5 : 1 * (L1 * P1) ≤ L0 * (L1 * P1) := mul_le_mul_of_nonneg_right hL0 hB
  unfold scatteroffset_value
  obtain ⟨k2, e2⟩ := int32_spec (int32 (L0 * L1) * P1)
  obtain ⟨k1, e1⟩ := int32_spec (L0 * L1)
  rw [int32_add_both, e2, e1,
    show ((L0 * L1 + 4294967296 * k1) * P1 + 4294967296 * k2) * i + L1 * j =
      L0 * L1 * P1 * i + L1 * j + 4294967296 * (k1 * P1 * i + k2 * i) by ring,
    int32_add_mul]
  apply int32_of_fits
  · linarith
  · unfold INT_MAX at hfit ⊢
    linarith

/-- After the scatter, the local buffer of the process at coordinate `(i, j)`
holds in its interior the block of `U` at the offset of its rank. -/
theorem scatter_spec (G0 G1 P0 P1 size : Int) (hP0 : 1 ≤ P0) (hP1 : 1 ≤ P1)
    (hsize : size = P0 * P1)
    (hfit : local_size G0 P0 * P0 * (local_size G1 P1 * P1) ≤ INT_MAX)
    (a : ScatterArrays) (U : Memory) (u : Int → Memory)
    (i j : Int) (hi : 0 ≤ i ∧ i < P0) (hj : 0 ≤ j ∧ j < P1)
    (r c : Int) (hr : 0 ≤ r ∧ r < local_size G0 P0) (hc : 0 ≤ c ∧ c < local_size G1 P1) :
    scatter G0 G1 P0 P1 size a U u (i * P1 + j)
        (cell_address (local_size G1 P1 + 2) 1 1 + (r * (local_size G1 P1 + 2) + c)) =
      U (local_size G0 P0 * local_size G1 P1 * P1 * i + local_size G1 P1 * j
          + (r * global_padded G1 P1 + c)) := by
  obtain ⟨k0, k1⟩ := cart_rank_lt hi hj
  obtain ⟨e1, e2⟩ := scatter_arrays_spec P0 P1 (local_size G0 P0) (local_size G1 P1)
    (by omega) (by omega) a i j hi hj
  have e3 := scatteroffset_value_eq (show 1 ≤ local_size G0 P0 by omega)
    (show 0 ≤ local_size G1 P1 by omega) hi hj hfit
  unfold scatter MPI_Scatterv
  rw [if_pos ⟨k0, by rw [hsize]; exact k1⟩, e1, e2, e3]
  have hx : (global_block (local_size G0 P0) (local_size G1 P1)
      (global_padded G1 P1)).extent = 1 := rfl
  rw [hx, mul_one]
  exact (block_transfer _ _ _ _ _ _ _ _ (by omega)).1 r c hr hc

/-- With no update in between, the gather stores at every cell of a block of
a rank below `k` the value that `U` had there before the scatter. -/
theorem gather_blocks (G0 G1 P0 P1 size : Int) (hG1 : 0 ≤ G1) (hP0 : 1 ≤ P0) (hP1 : 1 ≤ P1)
    (hsize : size = P0 * P1)
    (hfit : local_size G0 P0 * P0 * (local_size G1 P1 * P1) ≤ INT_MAX)
    (a : ScatterArrays) (U Unew : Memory) (u : Int → Memory)
    (i j : Int) (hi : 0 ≤ i ∧ i < P0) (hj : 0 ≤ j ∧ j < P1)
    (r c : Int) (hr : 0 ≤ r ∧ r < local_size G0 P0) (hc : 0 ≤ c ∧ c < local_size G1 P1) :
    gather G0 G1 P0 P1 size a (scatter G0 G1 P0 P1 size a U u) Unew
        (local_size G0 P0 * local_size G1 P1 * P1 * i + local_size G1 P1 * j
          + (r * global_padded G1 P1 + c)) =
      U (local_size G0 P0 * local_size G1 P1 * P1 * i + local_size G1 P1 * j
          + (r * global_padded G1 P1 + c)) := by
  have hsz : (0 : Int) ≤ size := by
    rw [hsize]; exact mul_nonneg (by omega) (by omega)
  have hL0 : 1 ≤ local_size G0 P0 := by omega
  have hL1 : 1 ≤ local_size G1 P1 := by omega
  have hLP0 : 1 ≤ local_size G0 P0 * P0 := by
    have := mul_le_mul hL0 hP0 (by omega) (by omega)
    omega
  have hLP1 : 1 ≤ local_size G1 P1 * P1 := by
    have := mul_le_mul hL1 hP1 (by omega) (by omega)
    omega
  have hpad : local_size G1 P1 ≤ global_padded G1 P1 := by
    rw [global_padded_eq hG1 hP1 (fits_of_mul_fits hLP0 hLP1 hfit).2]
    have := mul_le_mul_of_nonneg_left hP1 (show 0 ≤ local_size G1 P1 by omega)
    rw [mul_one] at this
    exact this
  unfold gather MPI_Gatherv
  have key := forRange_inv hsz (fun rank buf =>
      unpack buf
        ((scatter_arrays P0 P1 (local_size G0 P0) (local_size G1 P1) a).scatteroffset rank *
          (global_block (local_size G0 P0) (local_size G1 P1) (global_padded G1 P1)).extent)
        ((scatter_arrays P0 P1 (local_size G0 P0) (local_size G1 P1) a).scattercounts rank)
        (global_block (local_size G0 P0) (local_size G1 P1) (global_padded G1 P1))
        (pack (scatter G0 G1 P0 P1 size a U u rank)
          (cell_address (local_size G1 P1 + 2) 1 1) 1
          (local_block (local_size G0 P0) (local_size G1 P1))))
    (fun k buf => ∀ i' j' r' c', 0 ≤ i' ∧ i' < P0 → 0 ≤ j' ∧ j' < P1 → i' * P1 + j' < k →
      0 ≤ r' ∧ r' < local_size G0 P0 → 0 ≤ c' ∧ c' < local_size G1 P1 →
      buf (local_size G0 P0 * local_size G1 P1 * P1 * i' + local_size G1 P1 * j'
          + (r' * global_padded G1 P1 + c')) =
        U (local_size G0 P0 * local_size G1 P1 * P1 * i' + local_size G1 P1 * j'
          + (r' * global_padded G1 P1 + c'))) Unew
    (fun i' j' r' c' hi' hj' hk _ _ => by
      have := (cart_rank_lt hi' hj').1
      omega)
    (by
      intro k buf hk1 hk2 ih i' j' r' c' hi' hj' hk' hr' hc'
      obtain ⟨i2, j2, hi2, hj2, rfl⟩ := rank_coords (show 0 < P1 by omega)
        (show 0 ≤ k ∧ k < P0 * P1 from ⟨hk1, by rw [← hsize]; exact hk2⟩)
      obtain ⟨e1, e2⟩ := scatter_arrays_spec P0 P1 (local_size G0 P0) (local_size G1 P1)
        (by omega) (by omega) a i2 j2 hi2 hj2
      have e3 := scatteroffset_value_eq hL0 (show 0 ≤ local_size G1 P1 by omega) hi2 hj2 hfit
      have hx : (global_block (local_size G0 P0) (local_size G1 P1)
          (global_padded G1 P1)).extent = 1 := rfl
      beta_reduce
      rw [e1, e2, e3, hx, mul_one]
      obtain ⟨t1, t2⟩ := block_transfer buf (scatter G0 G1 P0 P1 size a U u (i2 * P1 + j2))
        (local_size G0 P0 * local_size G1 P1 * P1 * i2 + local_size G1 P1 * j2)
        (cell_address (local_size G1 P1 + 2) 1 1) (local_size G0 P0) (local_size G1 P1)
        (global_padded G1 P1) (local_size G1 P1 + 2) hpad
      by_cases hblock : ∃ r2 c2, (0 ≤ r2 ∧ r2 < local_size G0 P0) ∧
          (0 ≤ c2 ∧ c2 < local_size G1 P1) ∧
          local_size G0 P0 * local_size G1 P1 * P1 * i' + local_size G1 P1 * j'
            + (r' * global_padded G1 P1 + c') =
          local_size G0 P0 * local_size G1 P1 * P1 * i2 + local_size G1 P1 * j2
            + (r2 * global_padded G1 P1 + c2)
      · obtain ⟨r2, c2, hr2, hc2, e⟩ := hblock
        rw [e]
        have := t1 r2 c2 hr2 hc2
        unfold global_block local_block
        rw [this]
        exact scatter_spec G0 G1 P0 P1 size hP0 hP1 hsize hfit a U u i2 j2 hi2 hj2 r2 c2 hr2 hc2
      · have := t2 (local_size G0 P0 * local_size G1 P1 * P1 * i' + local_size G1 P1 * j'
            + (r' * global_padded G1 P1 + c'))
          (fun r2 c2 hr2 hc2 e => hblock ⟨r2, c2, hr2, hc2, e⟩)
        unfold global_block local_block
        rw [this]
        apply ih i' j' r' c' hi' hj' _ hr' hc'
        by_contra hge
        have hkk : i' * P1 + j' = i2 * P1 + j2 := by omega
        obtain ⟨rfl, rfl⟩ := cart_rank_inj hj' hj2 hkk
        exact hblock ⟨r', c', hr', hc', rfl⟩)
  exact key i j r c hi hj (by rw [hsize]; exact (cart_rank_lt hi hj).2) hr hc

/-- The gather leaves an address that lies in the block of no rank as it
was. -/
theorem gather_untouched (G0 G1 P0 P1 size : Int) (hP0 : 1 ≤ P0) (hP1 : 1 ≤ P1)
    (hsize : size = P0 * P1) (hpad : local_size G1 P1 ≤ global_padded G1 P1)
    (a : ScatterArrays) (u : Int → Memory) (Unew : Memory) (addr : Int)
    (h : ∀ i j r c, 0 ≤ i ∧ i < P0 → 0 ≤ j ∧ j < P1 → 0 ≤ r ∧ r < local_size G0 P0 →
      0 ≤ c ∧ c < local_size G1 P1 →
      addr ≠ scatteroffset_value (local_size G0 P0) (local_size G1 P1) P1 i j
        + (r * global_padded G1 P1 + c)) :
    gather G0 G1 P0 P1 size a u Unew addr = Unew addr := by
  have hsz : (0 : Int) ≤ size := by
    rw [hsize]; exact mul_nonneg (by omega) (by omega)
  unfold gather MPI_Gatherv
  refine forRange_inv hsz _ (fun _ buf => buf addr = Unew addr) Unew rfl ?_
  intro k buf hk1 hk2 ih
  obtain ⟨i2, j2, hi2, hj2, rfl⟩ := rank_coords (show 0 < P1 by omega)
    (show 0 ≤ k ∧ k < P0 * P1 from ⟨hk1, by rw [← hsize]; exact hk2⟩)
  obtain ⟨e1, e2⟩ := scatter_arrays_spec P0 P1 (local_size G0 P0) (local_size G1 P1)
    (by omega) (by omega) a i2 j2 hi2 hj2
  have hx : (global_block (local_size G0 P0) (local_size G1 P1)
      (global_padded G1 P1)).extent = 1 := rfl
  rw [e1, e2, hx, mul_one]
  unfold global_block local_block
  rw [(block_transfer buf (u (i2 * P1 + j2)) _ _ _ _ _ _ hpad).2 addr
    (fun r c hr hc => h i2 j2 r c hi2 hj2 hr hc)]
  exact ih

/-- C3 (counterexample). On the `4 × 1073741824` grid over `2 × 1` processes
(`2 ^ 32` cells) the offset of rank `1` is the `int` product
`2 * 1073741824 * 1 * 1`, which is `-2147483648`: the gather stores the block
of rank `1` below the array, and the cell `(2, 0)` of the gathered array keeps
the `0` it held before instead of the `1` of the original. -/
theorem C3_round_trip_fails_on_offset_overflow :
    (4 : Int) ≤ INT_MAX ∧ (1073741824 : Int) ≤ INT_MAX ∧
    scatteroffset_value (local_size 4 2) (local_size 1073741824 1) 1 1 0 = -2147483648 ∧
    gather 4 1073741824 2 1 2 ⟨fun _ => 0, fun _ => 0⟩
        (scatter 4 1073741824 2 1 2 ⟨fun _ => 0, fun _ => 0⟩ (fun _ => 1) (fun _ _ => 0))
        (fun _ => 0) (cell_address (global_padded 1073741824 1) 2 0) = 0 ∧
    (fun _ : Int => (1 : ℚ)) (cell_address (global_padded 1073741824 1) 2 0) = 1 := by
  have hL0 : local_size 4 2 = 2 := by decide
  have hL1 : local_size 1073741824 1 = 1073741824 := by decide
  have hGP : global_padded 1073741824 1 = 1073741824 := by decide
  refine ⟨by decide, by decide, by decide, ?_, rfl⟩
  rw [gather_untouched 4 1073741824 2 1 2 (by decide) (by decide) (by decide) (by decide)]
  intro i j r c hi hj hr hc
  rw [hL0] at hr
  rw [hL1] at hc
  rw [hL0, hL1, hGP]
  have hj0 : j = 0 := by omega
  subst hj0
  unfold cell_address
  rcases (show i = 0 ∨ i = 1 by omega) with rfl | rfl
  · have : scatteroffset_value 2 1073741824 1 0 0 = 0 := by decide
    rw [this]; omega
  · have : scatteroffset_value 2 1073741824 1 1 0 = -2147483648 := by decide
    rw [this]; omega

/-- C3 (amended). For all global extents and every process grid `P0 × P1`
with `P0, P1 ≥ 1` on `size = P0 * P1` processes whose padded grid has at most
`INT_MAX` cells, scattering the padded global array `U` into the interiors of
the local buffers and gathering these interiors back, with no update in
between, yields an array that equals `U` at every cell `(R, C)` of the padded
grid, whatever the local buffers and the array of the gather held before; so
the `P0 * P1` blocks cover every cell. -/
theorem C3_scatter_gather_round_trip (G0 G1 P0 P1 size : Int) (hG0 : 0 ≤ G0) (hG1 : 0 ≤ G1)
    (hP0 : 1 ≤ P0) (hP1 : 1 ≤ P1) (hsize : size = P0 * P1)
    (hfit : local_size G0 P0 * P0 * (local_size G1 P1 * P1) ≤ INT_MAX)
    (a : ScatterArrays) (U Unew : Memory) (u : Int → Memory) (R C : Int)
    (hR : 0 ≤ R ∧ R < global_padded G0 P0) (hC : 0 ≤ C ∧ C < global_padded G1 P1) :
    gather G0 G1 P0 P1 size a (scatter G0 G1 P0 P1 size a U u) Unew
        (cell_address (global_padded G1 P1) R C) =
      U (cell_address (global_padded G1 P1) R C) := by
  have hz : ∀ P : Int, global_padded 0 P = 0 := fun P => by
    simp [global_padded, decompose]
  have hG0' : 1 ≤ G0 := by
    by_contra hc
    have h0 : G0 = 0 := by omega
    rw [h0, hz] at hR
    omega
  have hG1' : 1 ≤ G1 := by
    by_contra hc
    have h0 : G1 = 0 := by omega
    rw [h0, hz] at hC
    omega
  have hL0 := local_size_pos hG0' hP0
  have hL1 := local_size_pos hG1' hP1
  have hLP0 : 1 ≤ local_size G0 P0 * P0 := by
    have := mul_le_mul hL0 hP0 (by omega) (by omega)
    omega
  have hLP1 : 1 ≤ local_size G1 P1 * P1 := by
    have := mul_le_mul hL1 hP1 (by omega) (by omega)
    omega
  obtain ⟨f0, f1⟩ := fits_of_mul_fits hLP0 hLP1 hfit
  have e0 := global_padded_eq hG0 hP0 f0
  have e1 := global_padded_eq hG1 hP1 f1
  obtain ⟨i, r, hi, hr, rfl⟩ := rank_coords (show 0 < local_size G0 P0 by omega)
    (show 0 ≤ R ∧ R < P0 * local_size G0 P0 from ⟨hR.1, by rw [mul_comm, ← e0]; exact hR.2⟩)
  obtain ⟨j, c, hj, hc, rfl⟩ := rank_coords (show 0 < local_size G1 P1 by omega)
    (show 0 ≤ C ∧ C < P1 * local_size G1 P1 from ⟨hC.1, by rw [mul_comm, ← e1]; exact hC.2⟩)
  have key := gather_blocks G0 G1 P0 P1 size hG1 hP0 hP1 hsize hfit a U Unew u i j hi hj
    r c hr hc
  have ea : cell_address (global_padded G1 P1) (i * local_size G0 P0 + r)
      (j * local_size G1 P1 + c) =
      local_size G0 P0 * local_size G1 P1 * P1 * i + local_size G1 P1 * j
          + (r * global_padded G1 P1 + c) := by
    unfold cell_address
    rw [e1]
    ring
  rw [ea]
  exact key

/-- C3 (amended) on the `5 × 5` grid over `2 × 2` processes (padded to
`6 × 6`), at the padded cell `(5, 4)`. -/
theorem C3_scatter_gather_round_trip_witness :
    gather 5 5 2 2 4 ⟨fun _ => 0, fun _ => 0⟩
        (scatter 5 5 2 2 4 ⟨fun _ => 0, fun _ => 0⟩ (fun x => (x : ℚ)) (fun _ _ => 0))
        (fun _ => 0) (cell_address (global_padded 5 2) 5 4) =
      (fun x : Int => (x : ℚ)) (cell_address (global_padded 5 2) 5 4) :=
  C3_scatter_gather_round_trip 5 5 2 2 4 (by decide) (by decide) (by decide) (by decide)
    (by decide) (by decide) ⟨fun _ => 0, fun _ => 0⟩ (fun x => (x : ℚ)) (fun _ => 0)
    (fun _ _ => 0) 5 4 (by decide) (by decide)

/-! ### Halo exchange: buffers -/

/-- The cells of a row transfer at `&u[i][j]`: `local1` cells of row `i`
from column `j` on. -/
theorem mem_transfer_row (local1 i j a : Int) :
    a ∈ transfer_addresses local1 i j 1 (mat_row local1) ↔
      ∃ c : Int, (0 ≤ c ∧ c < local1) ∧ a = cell_address (local1 + 2) i (j + c) := by
  unfold transfer_addresses
  rw [displacements_one]
  simp only [mat_row, MPI_Type_create_resized, MPI_Type_vector, List.mem_map,
    List.mem_flatMap, List.mem_range]
  constructor
  · rintro ⟨d, ⟨r, _, c, hc, rfl⟩, rfl⟩
    refine ⟨(c : Int), ⟨by omega, by omega⟩, ?_⟩
    unfold cell_address
    ring
  · rintro ⟨c, hc, rfl⟩
    refine ⟨c, ⟨0, by decide, c.toNat, by omega, ?_⟩, ?_⟩
    · rw [Int.toNat_of_nonneg hc.1]; simp
    · unfold cell_address
      ring

/-- The cells of a column transfer at `&u[i][j]`: `local0` cells of column
`j` from row `i` on. -/
theorem mem_transfer_column (local0 local1 i j a : Int) :
    a ∈ transfer_addresses local1 i j 1 (mat_column local0 local1) ↔
      ∃ r : Int, (0 ≤ r ∧ r < local0) ∧ a = cell_address (local1 + 2) (i + r) j := by
  unfold transfer_addresses
  rw [displacements_one]
  simp only [mat_column, MPI_Type_create_resized, MPI_Type_vector, List.mem_map,
    List.mem_flatMap, List.mem_range]
  constructor
  · rintro ⟨d, ⟨r, hr, c, hc, rfl⟩, rfl⟩
    have hc0 : c = 0 := by
      have : (1 : Int).toNat = 1 := rfl
      omega
    subst hc0
    refine ⟨(r : Int), ⟨by omega, by omega⟩, ?_⟩
    unfold cell_address
    push_cast
    ring
  · rintro ⟨r, hr, rfl⟩
    refine ⟨r * (local1 + 2), ⟨r.toNat, by omega, 0, by decide, ?_⟩, ?_⟩
    · rw [Int.toNat_of_nonneg hr.1]; simp
    · unfold cell_address
      ring

/-- The posted operations, neighbour by neighbour. -/
theorem mem_halo_transfers (north south east west : Int) (b : Bounds) (local0 local1 : Int)
    (p : HaloOp × List Int) :
    p ∈ halo_transfers north south east west b local0 local1 ↔
      (north ≠ -1 ∧
        (p = (HaloOp.send_north, transfer_addresses local1 1 1 1 (mat_row local1)) ∨
         p = (HaloOp.recv_north, transfer_addresses local1 0 1 1 (mat_row local1)))) ∨
      (south ≠ -1 ∧
        (p = (HaloOp.send_south, transfer_addresses local1 (b.i_max - 1) 1 1 (mat_row local1)) ∨
         p = (HaloOp.recv_south, transfer_addresses local1 b.i_max 1 1 (mat_row local1)))) ∨
      (east ≠ -1 ∧
        (p = (HaloOp.send_east,
            transfer_addresses local1 b.i_min (b.j_max - 1) 1 (mat_column local0 local1)) ∨
         p = (HaloOp.recv_east,
            transfer_addresses local1 b.i_min b.j_max 1 (mat_column local0 local1)))) ∨
      (west ≠ -1 ∧
        (p = (HaloOp.send_west,
            transfer_addresses local1 b.i_min b.j_min 1 (mat_column local0 local1)) ∨
         p = (HaloOp.recv_west,
            transfer_addresses local1 b.i_min 0 1 (mat_column local0 local1)))) := by
  unfold halo_transfers
  by_cases hn : north = -1 <;> by_cases hs : south = -1 <;> by_cases he : east = -1 <;>
    by_cases hw : west = -1 <;> simp [hn, hs, he, hw, or_assoc]

/-- The row exchanges of every process, and the column exchanges of every
process with a north neighbour, send owned cells and receive into ghost cells
that are not corners. -/
theorem halo_transfers_off_corner (G0 G1 P0 P1 x y : Int) (hG0 : 1 ≤ G0) (hG1 : 1 ≤ G1)
    (hx : 0 ≤ x ∧ x < P0) (hy : 0 ≤ y ∧ y < P1)
    (p : HaloOp × List Int) (hp : p ∈ process_halo_transfers G0 G1 P0 P1 x y)
    (hrow : p.1 = HaloOp.send_north ∨ p.1 = HaloOp.recv_north ∨ p.1 = HaloOp.send_south ∨
      p.1 = HaloOp.recv_south ∨ 1 ≤ x)
    (a : Int) (ha : a ∈ p.2) :
    ∃ i j, a = cell_address (local_size G1 P1 + 2) i j ∧
      (p.1.is_send = true → owned_cell (local_size G0 P0) (local_size G1 P1) i j) ∧
      (p.1.is_send = false → edge_ghost_cell (local_size G0 P0) (local_size G1 P1) i j) := by
  have hL0 := local_size_pos hG0 (show 1 ≤ P0 by omega)
  have hL1 := local_size_pos hG1 (show 1 ≤ P1 by omega)
  obtain ⟨r1, r2⟩ := process_bounds_rows G0 G1 hx hy
  obtain ⟨c1, c2⟩ := process_bounds_cols G0 G1 hx hy
  have hs := @south_eq_neg_one_iff P0 P1 x y hx.1 hy
  have he := @east_eq_neg_one_iff P0 P1 x y hx.1 hy
  have hw := @west_eq_neg_one_iff P0 P1 x y hx.1 hy
  unfold process_halo_transfers at hp
  rw [mem_halo_transfers] at hp
  unfold owned_cell edge_ghost_cell
  rcases hp with ⟨-, rfl | rfl⟩ | ⟨hs', rfl | rfl⟩ | ⟨he', rfl | rfl⟩ | ⟨hw', rfl | rfl⟩
  · obtain ⟨c, hc, rfl⟩ := (mem_transfer_row _ _ _ _).1 ha
    exact ⟨1, 1 + c, rfl, fun _ => ⟨by omega, by omega⟩, fun h => by simp [HaloOp.is_send] at h⟩
  · obtain ⟨c, hc, rfl⟩ := (mem_transfer_row _ _ _ _).1 ha
    exact ⟨0, 1 + c, rfl, fun h => by simp [HaloOp.is_send] at h,
      fun _ => Or.inl ⟨Or.inl rfl, by omega⟩⟩
  · obtain ⟨c, hc, rfl⟩ := (mem_transfer_row _ _ _ _).1 ha
    have hx1 : x ≠ P0 - 1 := fun h => hs' (hs.2 (by omega))
    rw [r2, if_neg hx1]
    exact ⟨_, 1 + c, rfl, fun _ => ⟨by omega, by omega⟩, fun h => by simp [HaloOp.is_send] at h⟩
  · obtain ⟨c, hc, rfl⟩ := (mem_transfer_row _ _ _ _).1 ha
    have hx1 : x ≠ P0 - 1 := fun h => hs' (hs.2 (by omega))
    rw [r2, if_neg hx1]
    exact ⟨_, 1 + c, rfl, fun h => by simp [HaloOp.is_send] at h,
      fun _ => Or.inl ⟨Or.inr rfl, by omega⟩⟩
  · obtain ⟨r, hr, rfl⟩ := (mem_transfer_column _ _ _ _ _).1 ha
    have hx0 : x ≠ 0 := by
      rcases hrow with h | h | h | h | h
      · cases h
      · cases h
      · cases h
      · cases h
      · omega
    have hy1 : y ≠ P1 - 1 := fun h => he' (he.2 (by omega))
    rw [r1, if_neg hx0, c2, if_neg hy1]
    exact ⟨_, _, rfl, fun _ => ⟨by omega, by omega⟩, fun h => by simp [HaloOp.is_send] at h⟩
  · obtain ⟨r, hr, rfl⟩ := (mem_transfer_column _ _ _ _ _).1 ha
    have hx0 : x ≠ 0 := by
      rcases hrow with h | h | h | h | h
      · cases h
      · cases h
      · cases h
      · cases h
      · omega
    have hy1 : y ≠ P1 - 1 := fun h => he' (he.2 (by omega))
    rw [r1, if_neg hx0, c2, if_neg hy1]
    exact ⟨_, _, rfl, fun h => by simp [HaloOp.is_send] at h,
      fun _ => Or.inr ⟨by omega, Or.inr rfl⟩⟩
  · obtain ⟨r, hr, rfl⟩ := (mem_transfer_column _ _ _ _ _).1 ha
    have hx0 : x ≠ 0 := by
      rcases hrow with h | h | h | h | h
      · cases h
      · cases h
      · cases h
      · cases h
      · omega
    have hy0 : y ≠ 0 := fun h => hw' (hw.2 (by omega))
    rw [r1, if_neg hx0, c1, if_neg hy0]
    exact ⟨_, _, rfl, fun _ => ⟨by omega, by omega⟩, fun h => by simp [HaloOp.is_send] at h⟩
  · obtain ⟨r, hr, rfl⟩ := (mem_transfer_column _ _ _ _ _).1 ha
    have hx0 : x ≠ 0 := by
      rcases hrow with h | h | h | h | h
      · cases h
      · cases h
      · cases h
      · cases h
      · omega
    rw [r1, if_neg hx0]
    exact ⟨_, _, rfl, fun h => by simp [HaloOp.is_send] at h,
      fun _ => Or.inr ⟨by omega, Or.inl rfl⟩⟩

/-- On every process without a north neighbour and with an east neighbour the
receive from the east stores into the corner cell below the last owned row,
and the send to the east reads the ghost cell next to it. -/
theorem halo_east_exchange_on_first_row (G0 G1 P0 P1 y : Int) (hG0 : 1 ≤ G0)
    (hP0 : 1 ≤ P0) (hy : 0 ≤ y ∧ y + 1 < P1) :
    (∃ p ∈ process_halo_transfers G0 G1 P0 P1 0 y, p.1 = HaloOp.recv_east ∧
      cell_address (local_size G1 P1 + 2) (local_size G0 P0 + 1) (local_size G1 P1 + 1) ∈ p.2) ∧
    (∃ p ∈ process_halo_transfers G0 G1 P0 P1 0 y, p.1 = HaloOp.send_east ∧
      cell_address (local_size G1 P1 + 2) (local_size G0 P0 + 1) (local_size G1 P1) ∈ p.2) := by
  have hL0 := local_size_pos hG0 hP0
  have hx : (0 : Int) ≤ 0 ∧ (0 : Int) < P0 := ⟨le_refl _, by omega⟩
  have hy' : 0 ≤ y ∧ y < P1 := ⟨hy.1, by omega⟩
  obtain ⟨r1, -⟩ := process_bounds_rows G0 G1 hx hy'
  obtain ⟨-, c2⟩ := process_bounds_cols G0 G1 hx hy'
  have he := @east_eq_neg_one_iff P0 P1 0 y (le_refl _) hy'
  have hee : (neighbours P0 P1 0 y).east ≠ -1 := fun h => by have := he.1 h; omega
  rw [if_pos rfl] at r1
  rw [if_neg (by omega)] at c2
  unfold process_halo_transfers
  constructor
  · refine ⟨_, (mem_halo_transfers _ _ _ _ _ _ _ _).2
      (Or.inr (Or.inr (Or.inl ⟨hee, Or.inr rfl⟩))), rfl, ?_⟩
    rw [mem_transfer_column, r1, c2]
    exact ⟨local_size G0 P0 - 1, ⟨by omega, by omega⟩, by congr 1; ring⟩
  · refine ⟨_, (mem_halo_transfers _ _ _ _ _ _ _ _).2
      (Or.inr (Or.inr (Or.inl ⟨hee, Or.inl rfl⟩))), rfl, ?_⟩
    rw [mem_transfer_column, r1, c2]
    exact ⟨local_size G0 P0 - 1, ⟨by omega, by omega⟩, by congr 1 <;> ring⟩

/-- C11 (the code at the failing input). The process at `(0, 0)` of the `2 × 2`
process grid on the `4 × 4` global grid has local size `2 × 2`, a `4 × 4`
buffer, no north neighbour and the bounds `2 ≤ i < 3`, `2 ≤ j < 3`.  Its
column exchange with the east neighbour starts at row `i_min = 2` and spans
`local[0] = 2` rows: it sends the cells `(2, 2)` and `(3, 2)`, the second a
ghost cell, and receives into the cells `(2, 3)` and `(3, 3)`, the second a
corner of the buffer. -/
theorem C11_column_exchange_reaches_corner :
    local_size 4 2 = 2 ∧ (neighbours 2 2 0 0).north = -1 ∧
    process_bounds 4 4 2 2 0 0 = { i_min := 2, i_max := 3, j_min := 2, j_max := 3 } ∧
    process_halo_transfers 4 4 2 2 0 0 =
      [(HaloOp.send_south, [cell_address 4 2 1, cell_address 4 2 2]),
       (HaloOp.recv_south, [cell_address 4 3 1, cell_address 4 3 2]),
       (HaloOp.send_east, [cell_address 4 2 2, cell_address 4 3 2]),
       (HaloOp.recv_east, [cell_address 4 2 3, cell_address 4 3 3])] ∧
    ¬ owned_cell 2 2 3 2 ∧ corner_cell 2 2 3 3 := by
  refine ⟨by decide, by decide, by decide, by decide, ?_, ?_⟩
  · unfold owned_cell; decide
  · unfold corner_cell; decide

end GridSolvers
